import Mathlib

/-!
# Line search of `numopt-projekat`: embedding and verification

Shallow embedding of `src/lnsearch.h` (and of the parts of `src/functions.h`
that the verified properties use).

Conventions of the embedding.

* The template parameter `real` is a linearly ordered field `α`; arithmetic is
  exact.  All definitions are computable (they run over `ℚ`).
* `sqrt` is the library square root of `<cmath>`; it is a parameter of every
  definition that calls it.
* The source computes with IEEE numbers, where the square root of a negative
  number and a quotient by zero are not real numbers (NaN, ±∞).  Those two
  events are explicit in the embedding: `interp_tmp` and the helpers `sqrtOpt`
  and `divOpt` return `none` for them, and each function says what the source
  does next.
* `while (1)` loops take a `fuel : ℕ` that bounds the number of loop
  iterations; `none` means that no step was returned within the fuel.
* `size_t` counters are natural numbers modulo `2 ^ 64`.
-/

namespace LnSearch

/-! ## Vectors (`la.h`) -/

/-- Modelled from the spec: `la::vec<real>` of `la.h`, which is not among the
source files; "an ordered, fixed-length sequence of real numbers". -/
abbrev Vec (α : Type) := List α

/-- Modelled from the spec: vector addition `u + v` of `la.h` ("vector
addition ... of matching dimension"), componentwise. -/
def Vec.add {α : Type} [Add α] (u v : Vec α) : Vec α := List.zipWith (· + ·) u v

/-- Modelled from the spec: scalar-vector multiplication `v * a` of `la.h`,
componentwise. -/
def Vec.smul {α : Type} [Mul α] (v : Vec α) (a : α) : Vec α := v.map (· * a)

/-- Modelled from the spec: dot product `u.dot(v)` of `la.h`. -/
def Vec.dot {α : Type} [Add α] [Mul α] [Zero α] (u v : Vec α) : α :=
  (List.zipWith (· * ·) u v).sum

/-! ## Partial arithmetic -/

/-- Square root with the negative case explicit: `none` where the source gets
NaN. -/
def sqrtOpt {α : Type} [LinearOrderedField α] (sqrt : α → α) (x : α) : Option α :=
  if x < 0 then none else some (sqrt x)

/-- Quotient with the zero divisor explicit: `none` where the source gets an
infinity or NaN. -/
def divOpt {α : Type} [LinearOrderedField α] (x y : α) : Option α :=
  if y = 0 then none else some (x / y)

/-! ## `interp` -/

/-- The candidate `tmp` of `interp`:
`t2 - (t2 - t1)*(der2 + d2 - d1)/(der2 - der1 + 2*d2)` with
`d1 = der1+der2-3*(val1-val2)/(t1-t2)` and `d2 = sqrt(d1*d1-der1*der2)`;
`none` when one of the operations has no real value: a zero divisor `t1 - t2`,
a negative argument of `sqrt`, or a zero divisor `der2 - der1 + 2*d2`. -/
def interp_tmp {α : Type} [LinearOrderedField α] (sqrt : α → α)
    (t1 t2 val1 val2 der1 der2 : α) : Option α :=
  if t1 - t2 = 0 then none
  else
    let d1 : α := der1 + der2 - 3 * (val1 - val2) / (t1 - t2)
    if d1 * d1 - der1 * der2 < 0 then none
    else
      let d2 : α := sqrt (d1 * d1 - der1 * der2)
      if der2 - der1 + 2 * d2 = 0 then none
      else some (t2 - (t2 - t1) * (der2 + d2 - d1) / (der2 - der1 + 2 * d2))

/-- The function `interp` of `lnsearch.h`.  When `tmp` is not a real number
the source's test `tmp >= 0` is false for NaN and `-∞` (then `t = t1 - 1`) and
true for `+∞` (then `t = +∞ > t2`); in all three cases the range test that
follows resets `t` to `t1`, which is what the `none` branch does. -/
def interp {α : Type} [LinearOrderedField α] (sqrt : α → α)
    (t1 t2 val1 val2 der1 der2 : α) : α :=
  let t : α :=
    match interp_tmp sqrt t1 t2 val1 val2 der1 der2 with
    | some tmp => if tmp ≥ 0 then tmp else t1 - 1
    | none => t1 - 1
  if t < t1 ∨ t > t2 then t1 else t

/-! ## `wolfe` -/

/-- The bracket variables `a1, a2, f1, f2, pad1, pad2` of `wolfe` and
`strong_wolfe`, which the closure `noc_zoom` captures by reference. -/
structure Bracket (α : Type) where
  a1 : α
  a2 : α
  f1 : α
  f2 : α
  pad1 : α
  pad2 : α

/-- The `return` statement through which `wolfe` or `strong_wolfe` hands back
its step (a ghost tag, not a value of the source): `bracket` is `return a2` in
the outer loop, `zoom_accept` is the `return a` after the curvature test in
`noc_zoom`, `zoom_stall` is the `return a` of the relative-tolerance test in
`noc_zoom`. -/
inductive Exit where
  | bracket
  | zoom_accept
  | zoom_stall
  deriving DecidableEq, Repr

/-- The closure `noc_zoom` of `wolfe`, one unit of fuel per loop iteration. -/
def wolfe_noc_zoom {α : Type} [LinearOrderedField α] (sqrt : α → α)
    (x0 d : Vec α) (f : Vec α → α) (g : Vec α → Vec α)
    (f0 pad0 steepness sigma xi : α) : Nat → Bracket α → Option (α × Exit)
  | 0, _ => none
  | fuel + 1, b =>
    let a : α :=
      if b.a1 < b.a2 then interp sqrt b.a1 b.a2 b.f1 b.f2 b.pad1 b.pad2
      else interp sqrt b.a2 b.a1 b.f2 b.f1 b.pad2 b.pad1
    let ff : α := f (Vec.add x0 (Vec.smul d a))
    let pad : α := Vec.dot (g (Vec.add x0 (Vec.smul d a))) d
    if |ff - b.f1| / (1 + |ff|) < xi ∨ |ff - b.f2| / (1 + |ff|) < xi then
      some (a, Exit.zoom_stall)
    else if ff > f0 + steepness * a * pad0 ∨ ff ≥ b.f1 then
      wolfe_noc_zoom sqrt x0 d f g f0 pad0 steepness sigma xi fuel
        { b with a2 := a, f2 := ff, pad2 := pad }
    else if b.pad1 ≥ sigma * pad0 then
      some (a, Exit.zoom_accept)
    else
      wolfe_noc_zoom sqrt x0 d f g f0 pad0 steepness sigma xi fuel
        { b with a1 := a, f1 := ff, pad1 := pad }

/-- The outer `while (1)` loop of `wolfe`, one unit of fuel per iteration; the
zoom phase runs on the fuel that is left. -/
def wolfe_loop {α : Type} [LinearOrderedField α] (sqrt : α → α)
    (x0 d : Vec α) (f : Vec α → α) (g : Vec α → Vec α)
    (f0 pad0 steepness sigma xi max_step step_factor : α) :
    Nat → Bracket α → Nat → Option (α × Exit)
  | 0, _, _ => none
  | fuel + 1, b, steps =>
    if b.f2 > f0 + pad0 * steepness * b.a2 ∨ (b.f1 ≤ b.f2 ∧ steps > 1) then
      wolfe_noc_zoom sqrt x0 d f g f0 pad0 steepness sigma xi fuel b
    else if b.pad2 ≥ sigma * b.pad1 then
      some (b.a2, Exit.bracket)
    else
      let a2 : α := min max_step (b.a2 * step_factor)
      wolfe_loop sqrt x0 d f g f0 pad0 steepness sigma xi max_step step_factor fuel
        { a1 := b.a2, f1 := b.f2, pad1 := b.pad2,
          a2 := a2,
          f2 := f (Vec.add x0 (Vec.smul d a2)),
          pad2 := Vec.dot (g (Vec.add x0 (Vec.smul d a2))) d }
        ((steps + 1) % 2 ^ 64)

/-- The function `wolfe` of `lnsearch.h`, with the exit through which it
returned. -/
def wolfe_exit {α : Type} [LinearOrderedField α] (sqrt : α → α) (fuel : Nat)
    (x0 d : Vec α) (f : Vec α → α) (g : Vec α → Vec α)
    (steepness initial_step sigma xi max_step step_factor : α) : Option (α × Exit) :=
  let a2 : α := initial_step
  let f0 : α := f x0
  let pad0 : α := Vec.dot (g x0) d
  wolfe_loop sqrt x0 d f g f0 pad0 steepness sigma xi max_step step_factor fuel
    { a1 := 0, a2 := a2, f1 := f0,
      f2 := f (Vec.add x0 (Vec.smul d a2)),
      pad1 := pad0,
      pad2 := Vec.dot (g (Vec.add x0 (Vec.smul d a2))) d }
    1

/-- The function `wolfe` of `lnsearch.h`: the step it returns. -/
def wolfe {α : Type} [LinearOrderedField α] (sqrt : α → α) (fuel : Nat)
    (x0 d : Vec α) (f : Vec α → α) (g : Vec α → Vec α)
    (steepness initial_step sigma xi max_step step_factor : α) : Option α :=
  (wolfe_exit sqrt fuel x0 d f g steepness initial_step sigma xi max_step step_factor).map
    Prod.fst

/-! ## `strong_wolfe` -/

/-- The closure `noc_zoom` of `strong_wolfe`. -/
def strong_wolfe_noc_zoom {α : Type} [LinearOrderedField α] (sqrt : α → α)
    (x0 d : Vec α) (f : Vec α → α) (g : Vec α → Vec α)
    (f0 pad0 steepness sigma xi : α) : Nat → Bracket α → Option (α × Exit)
  | 0, _ => none
  | fuel + 1, b =>
    let a : α :=
      if b.a1 < b.a2 then interp sqrt b.a1 b.a2 b.f1 b.f2 b.pad1 b.pad2
      else interp sqrt b.a2 b.a1 b.f2 b.f1 b.pad2 b.pad1
    let ff : α := f (Vec.add x0 (Vec.smul d a))
    let pad : α := Vec.dot (g (Vec.add x0 (Vec.smul d a))) d
    if |ff - b.f1| / (1 + |ff|) < xi ∨ |ff - b.f2| / (1 + |ff|) < xi then
      some (a, Exit.zoom_stall)
    else if ff > f0 + steepness * a * pad0 ∨ ff ≥ b.f1 then
      strong_wolfe_noc_zoom sqrt x0 d f g f0 pad0 steepness sigma xi fuel
        { b with a2 := a, f2 := ff, pad2 := pad }
    else if |b.pad1| ≤ -sigma * pad0 then
      some (a, Exit.zoom_accept)
    else
      let b1 : Bracket α :=
        if b.pad1 * (b.a2 - b.a1) ≥ 0 then
          { b with a2 := b.a1, f2 := b.f1, pad2 := b.pad1 }
        else b
      strong_wolfe_noc_zoom sqrt x0 d f g f0 pad0 steepness sigma xi fuel
        { b1 with a1 := a, f1 := ff, pad1 := pad }

/-- The outer `while (1)` loop of `strong_wolfe`. -/
def strong_wolfe_loop {α : Type} [LinearOrderedField α] (sqrt : α → α)
    (x0 d : Vec α) (f : Vec α → α) (g : Vec α → Vec α)
    (f0 pad0 steepness sigma xi max_step step_factor : α) :
    Nat → Bracket α → Nat → Option (α × Exit)
  | 0, _, _ => none
  | fuel + 1, b, steps =>
    if b.f2 > f0 + pad0 * steepness * b.a2 ∨ (b.f1 ≤ b.f2 ∧ steps > 1) then
      strong_wolfe_noc_zoom sqrt x0 d f g f0 pad0 steepness sigma xi fuel b
    else if |b.pad2| ≤ -sigma * b.pad1 then
      some (b.a2, Exit.bracket)
    else if b.pad2 ≥ 0 then
      strong_wolfe_noc_zoom sqrt x0 d f g f0 pad0 steepness sigma xi fuel b
    else
      let a2 : α := min max_step (b.a2 * step_factor)
      strong_wolfe_loop sqrt x0 d f g f0 pad0 steepness sigma xi max_step step_factor fuel
        { a1 := b.a2, f1 := b.f2, pad1 := b.pad2,
          a2 := a2,
          f2 := f (Vec.add x0 (Vec.smul d a2)),
          pad2 := Vec.dot (g (Vec.add x0 (Vec.smul d a2))) d }
        ((steps + 1) % 2 ^ 64)

/-- The function `strong_wolfe` of `lnsearch.h`, with the exit through which
it returned. -/
def strong_wolfe_exit {α : Type} [LinearOrderedField α] (sqrt : α → α) (fuel : Nat)
    (x0 d : Vec α) (f : Vec α → α) (g : Vec α → Vec α)
    (steepness initial_step sigma xi max_step step_factor : α) : Option (α × Exit) :=
  let a2 : α := initial_step
  let f0 : α := f x0
  let pad0 : α := Vec.dot (g x0) d
  strong_wolfe_loop sqrt x0 d f g f0 pad0 steepness sigma xi max_step step_factor fuel
    { a1 := 0, a2 := a2, f1 := f0,
      f2 := f (Vec.add x0 (Vec.smul d a2)),
      pad1 := pad0,
      pad2 := Vec.dot (g (Vec.add x0 (Vec.smul d a2))) d }
    1

/-- The function `strong_wolfe` of `lnsearch.h`: the step it returns. -/
def strong_wolfe {α : Type} [LinearOrderedField α] (sqrt : α → α) (fuel : Nat)
    (x0 d : Vec α) (f : Vec α → α) (g : Vec α → Vec α)
    (steepness initial_step sigma xi max_step step_factor : α) : Option α :=
  (strong_wolfe_exit sqrt fuel x0 d f g steepness initial_step sigma xi max_step
    step_factor).map Prod.fst

/-! ## `armijo` -/

/-- The coefficient `cubic` of the cubic interpolation in `armijo`. -/
def armijo_cubic {α : Type} [LinearOrderedField α]
    (f0 pad a_curr a_prev f_curr f_prev : α) : Option α :=
  divOpt
    (a_prev * a_prev * (f_curr - f0) - a_curr * a_prev * a_prev * pad
      + a_curr * a_curr * (f0 - f_prev + a_prev * pad))
    (a_curr * a_curr * (a_curr - a_prev) * a_prev * a_prev)

/-- The coefficient `quadr` of the cubic interpolation in `armijo`. -/
def armijo_quadr {α : Type} [LinearOrderedField α]
    (f0 pad a_curr f_curr cubic : α) : Option α :=
  divOpt (-cubic * a_curr * a_curr * a_curr - f0 + f_curr - a_curr * pad) (a_curr * a_curr)

/-- The step `a_new` computed by one pass through the loop body of `armijo`:
quadratic interpolation when `steps == 1`, cubic interpolation otherwise;
`none` when the formula has no real value. -/
def armijo_a_new {α : Type} [LinearOrderedField α] (sqrt : α → α)
    (f0 pad a_curr a_prev f_curr f_prev : α) (steps : Nat) : Option α :=
  if steps = 1 then
    divOpt (pad * a_curr * a_curr / 2) (f0 - f_curr + pad * a_curr)
  else do
    let cubic ← armijo_cubic f0 pad a_curr a_prev f_curr f_prev
    let quadr ← armijo_quadr f0 pad a_curr f_curr cubic
    let r ← sqrtOpt sqrt (quadr * quadr - 3 * cubic * pad)
    divOpt (-quadr + r) (3 * cubic)

/-- The loop variables of `armijo`; `evals` is a ghost field that lists, in
order, the points at which `f` has been called. -/
structure ArmijoState (α : Type) where
  a_curr : α
  f_curr : α
  a_prev : α
  f_prev : α
  steps : Nat
  evals : List (Vec α)

/-- The `while` loop of `armijo`, one unit of fuel per test of the loop
condition.  When `a_new` has no real value the source goes on with a NaN or an
infinite step; the embedding then returns no step. -/
def armijo_loop {α : Type} [LinearOrderedField α] (sqrt : α → α)
    (x0 d : Vec α) (f : Vec α → α) (f0 pad steepness : α) :
    Nat → ArmijoState α → Option (ArmijoState α)
  | 0, _ => none
  | fuel + 1, s =>
    if s.f_curr > f0 - steepness * s.a_curr * pad then
      match armijo_a_new sqrt f0 pad s.a_curr s.a_prev s.f_curr s.f_prev s.steps with
      | none => none
      | some a_new =>
        armijo_loop sqrt x0 d f f0 pad steepness fuel
          { a_prev := s.a_curr, a_curr := a_new,
            f_prev := s.f_curr, f_curr := f (Vec.add x0 (Vec.smul d a_new)),
            steps := (s.steps + 1) % 2 ^ 64,
            evals := s.evals ++ [Vec.add x0 (Vec.smul d a_new)] }
    else some s

/-- The function `armijo` of `lnsearch.h`, returning the final loop state.
`a_prev` and `f_prev` are uninitialised in the source until the first pass
through the loop body, which assigns them before any read; they start at `0`
here. -/
def armijo_run {α : Type} [LinearOrderedField α] (sqrt : α → α) (fuel : Nat)
    (x0 d : Vec α) (f : Vec α → α) (g : Vec α → Vec α)
    (steepness initial_step : α) : Option (ArmijoState α) :=
  let f0 : α := f x0
  let pad : α := Vec.dot (g x0) d
  let a_curr : α := initial_step
  armijo_loop sqrt x0 d f f0 pad steepness fuel
    { a_curr := a_curr, f_curr := f (Vec.add x0 (Vec.smul d a_curr)),
      a_prev := 0, f_prev := 0, steps := 1,
      evals := [x0, Vec.add x0 (Vec.smul d a_curr)] }

/-- The function `armijo` of `lnsearch.h`: the step it returns. -/
def armijo {α : Type} [LinearOrderedField α] (sqrt : α → α) (fuel : Nat)
    (x0 d : Vec α) (f : Vec α → α) (g : Vec α → Vec α)
    (steepness initial_step : α) : Option α :=
  (armijo_run sqrt fuel x0 d f g steepness initial_step).map ArmijoState.a_curr

/-! ## `goldstein` -/

/-- The loop variables of `goldstein`; `evals` is a ghost field that lists, in
order, the trial steps `a` for which `f(x0 + d*a)` has been called. -/
structure GoldsteinState (α : Type) where
  a1 : α
  a2 : α
  a : α
  a2inf : Bool
  ff : α
  steps : Nat
  evals : List α

/-- The loop `while (steps < 52)` of `goldstein`, one unit of fuel per entry
into the loop body. -/
def goldstein_loop {α : Type} [LinearOrderedField α]
    (x0 d : Vec α) (f : Vec α → α) (f0 pad steepness gamma : α) :
    Nat → GoldsteinState α → Option (GoldsteinState α)
  | 0, s => if s.steps < 52 then none else some s
  | fuel + 1, s =>
    if s.steps < 52 then
      if s.ff > f0 + steepness * s.a * pad then
        let a2 : α := s.a
        let a : α := (s.a1 + a2) / 2
        goldstein_loop x0 d f f0 pad steepness gamma fuel
          { a1 := s.a1, a2 := a2, a2inf := false, a := a,
            steps := s.steps + 1,
            ff := f (Vec.add x0 (Vec.smul d a)),
            evals := s.evals ++ [a] }
      else if s.ff < f0 + (1 - steepness) * s.a * pad then
        let a1 : α := s.a
        let a : α := if s.a2inf = false then (a1 + s.a2) / 2 else s.a * gamma
        goldstein_loop x0 d f f0 pad steepness gamma fuel
          { a1 := a1, a2 := s.a2, a2inf := s.a2inf, a := a,
            steps := s.steps + 1,
            ff := f (Vec.add x0 (Vec.smul d a)),
            evals := s.evals ++ [a] }
      else some s
    else some s

/-- The function `goldstein` of `lnsearch.h`, returning the final loop
state. -/
def goldstein_run {α : Type} [LinearOrderedField α] (fuel : Nat)
    (x0 d : Vec α) (f : Vec α → α) (g : Vec α → Vec α)
    (steepness initial_step gamma : α) : Option (GoldsteinState α) :=
  let pad : α := Vec.dot (g x0) d
  let a : α := initial_step
  let f0 : α := f x0
  goldstein_loop x0 d f f0 pad steepness gamma fuel
    { a1 := 0, a2 := 0, a := a, a2inf := true,
      ff := f (Vec.add x0 (Vec.smul d a)), steps := 1, evals := [a] }

/-- The function `goldstein` of `lnsearch.h`: the step it returns. -/
def goldstein {α : Type} [LinearOrderedField α] (fuel : Nat)
    (x0 d : Vec α) (f : Vec α → α) (g : Vec α → Vec α)
    (steepness initial_step gamma : α) : Option α :=
  (goldstein_run fuel x0 d f g steepness initial_step gamma).map GoldsteinState.a

/-- Invariant of the `goldstein` loop: `ff` is the value of `f` at the current trial
step, `steps` stays in `1..52` and counts the trial steps evaluated so far, the
last of which is the current `a`. -/
def GoldsteinInv {α : Type} [LinearOrderedField α] (x0 d : Vec α) (f : Vec α → α)
    (s : GoldsteinState α) : Prop :=
  s.ff = f (Vec.add x0 (Vec.smul d s.a)) ∧ 1 ≤ s.steps ∧ s.steps ≤ 52 ∧
    s.evals.length = s.steps ∧ s.evals.getLast? = some s.a

/-! ## `functions::quadratic` -/

/-- The function `quadratic` of `functions.h`: the sum of the squares of the
components. -/
def quadratic {α : Type} [LinearOrderedField α] (v : Vec α) : α :=
  v.foldl (fun z x => z + x * x) 0

/-! ## Test oracles and side conditions -/

/-- Test objective for the counterexamples: the quartic
`-2x + 9x² - 12x³ + 9x⁴` of the first component. -/
def quartic_f (v : Vec ℚ) : ℚ :=
  (fun x : ℚ => -2 * x + 9 * x ^ 2 - 12 * x ^ 3 + 9 * x ^ 4) (v.headD 0)

/-- Gradient of `quartic_f`. -/
def quartic_g (v : Vec ℚ) : Vec ℚ :=
  [(fun x : ℚ => -2 + 18 * x - 36 * x ^ 2 + 36 * x ^ 3) (v.headD 0)]

/-- Test objective for the counterexamples: the quintic
`-2x + 45x² - 192x³ + 261x⁴ - 108x⁵` of the first component. -/
def quintic_f (v : Vec ℚ) : ℚ :=
  (fun x : ℚ => -2 * x + 45 * x ^ 2 - 192 * x ^ 3 + 261 * x ^ 4 - 108 * x ^ 5) (v.headD 0)

/-- Gradient of `quintic_f`. -/
def quintic_g (v : Vec ℚ) : Vec ℚ :=
  [(fun x : ℚ => -2 + 90 * x - 576 * x ^ 2 + 1044 * x ^ 3 - 540 * x ^ 4) (v.headD 0)]

/-- The parameter `sqrt` is a square root: on non-negative arguments it returns
the non-negative root. -/
def IsSqrt {α : Type} [LinearOrderedField α] (sqrt : α → α) : Prop :=
  ∀ y : α, 0 ≤ y → 0 ≤ sqrt y ∧ sqrt y * sqrt y = y

/-! ## Cubic polynomials -/

/-- The cubic polynomial `c3*t³ + c2*t² + c1*t + c0`. -/
def cubic_eval {α : Type} [LinearOrderedField α] (c3 c2 c1 c0 t : α) : α :=
  c3 * t ^ 3 + c2 * t ^ 2 + c1 * t + c0

/-- First derivative of `cubic_eval`. -/
def cubic_deriv {α : Type} [LinearOrderedField α] (c3 c2 c1 t : α) : α :=
  3 * c3 * t ^ 2 + 2 * c2 * t + c1

/-- Second derivative of `cubic_eval`. -/
def cubic_deriv2 {α : Type} [LinearOrderedField α] (c3 c2 t : α) : α :=
  6 * c3 * t + 2 * c2

/-! ## Test oracles for later passes of the bracketing loop -/

/-- Test objective for the later-pass examples: the cubic
`43x³ - 672x² - 135x` of the first component, decreasing on `[0, 10]` with
slopes `-135`, `-1350`, `-675` at `0`, `1`, `10`. -/
def cubic_a_f (v : Vec ℚ) : ℚ :=
  (fun x : ℚ => 43 * x ^ 3 - 672 * x ^ 2 - 135 * x) (v.headD 0)

/-- Gradient of `cubic_a_f`. -/
def cubic_a_g (v : Vec ℚ) : Vec ℚ :=
  [(fun x : ℚ => 129 * x ^ 2 - 1344 * x - 135) (v.headD 0)]

/-- Test objective for the later-pass examples: the cubic
`362x³ - 5403x² - 1080x` of the first component, decreasing on `[0, 10]` with
slopes `-1080`, `-10800`, `-540` at `0`, `1`, `10`. -/
def cubic_b_f (v : Vec ℚ) : ℚ :=
  (fun x : ℚ => 362 * x ^ 3 - 5403 * x ^ 2 - 1080 * x) (v.headD 0)

/-- Gradient of `cubic_b_f`. -/
def cubic_b_g (v : Vec ℚ) : Vec ℚ :=
  [(fun x : ℚ => 1086 * x ^ 2 - 10806 * x - 1080) (v.headD 0)]

/-! ## `fixed_line_search` and `binary` -/

/-- The function `fixed_line_search` of `lnsearch.h`. -/
def fixed_line_search {α : Type} (initial_step : α) : α := initial_step

/-- Modelled from the spec: division of a vector by a scalar, `v / c` of `la.h`
("scalar-matrix division"), componentwise. -/
def Vec.sdiv {α : Type} [Div α] (v : Vec α) (c : α) : Vec α := v.map (· / c)

/-- The first `while` loop of `binary` (doubling), one unit of fuel per test of
the loop condition; `curr` is the value at `a`, `t` the value at `2a`. -/
def binary_double {α : Type} [LinearOrderedField α] (x0 d : Vec α) (f : Vec α → α) :
    Nat → α → α → α → Option α
  | 0, _, _, _ => none
  | fuel + 1, a, curr, t =>
    if t < curr then
      let a1 : α := a * 2
      binary_double x0 d f fuel a1 t (f (Vec.add x0 (Vec.smul (Vec.smul d a1) 2)))
    else some a

/-- The second `while` loop of `binary` (halving), one unit of fuel per test of
the loop condition; `curr` is the value at `a`, `t` the value at `a/2`. -/
def binary_halve {α : Type} [LinearOrderedField α] (x0 d : Vec α) (f : Vec α → α) :
    Nat → α → α → α → Option α
  | 0, _, _, _ => none
  | fuel + 1, a, curr, t =>
    if t < curr then
      let a1 : α := a / 2
      binary_halve x0 d f fuel a1 t (f (Vec.add x0 (Vec.sdiv (Vec.smul d a1) 2)))
    else some a

/-- The function `binary` of `lnsearch.h`. -/
def binary {α : Type} [LinearOrderedField α] (fuel : Nat) (x0 d : Vec α) (f : Vec α → α)
    (initial_step : α) : Option α :=
  let a : α := initial_step
  let f0 : α := f (Vec.add x0 (Vec.smul d a))
  let f1 : α := f (Vec.add x0 (Vec.smul (Vec.smul d a) 2))
  if f1 < f0 then
    let a1 : α := a * 2
    binary_double x0 d f fuel a1 f1 (f (Vec.add x0 (Vec.smul (Vec.smul d a1) 2)))
  else
    binary_halve x0 d f fuel a f0 (f (Vec.add x0 (Vec.sdiv (Vec.smul d a) 2)))

/-! ## `line_search` -/

/-- A `std::map<std::string, real>`, modelled by its lookup function: `none` for
a key that is not in the map. -/
abbrev ParamMap (α : Type) := String → Option α

/-- The empty map `std::map<std::string, real> p;`. -/
def ParamMap.empty {α : Type} : ParamMap α := fun _ => none

/-- The assignment `p[key] = value`. -/
def ParamMap.set {α : Type} (p : ParamMap α) (key : String) (value : α) : ParamMap α :=
  fun k => if k = key then some value else p k

/-- The read `p[key]`: `operator[]` yields a value-initialised `real`, that is
`0`, for a key that is not in the map. -/
def ParamMap.get {α : Type} [Zero α] (p : ParamMap α) (key : String) : α :=
  (p key).getD 0

/-- The closure `rest` of `line_search`: `for (auto e : params) p[e.first] = e.second`
assigns to `p` every key that is present in `params`. -/
def ParamMap.rest {α : Type} (p params : ParamMap α) : ParamMap α :=
  fun k =>
    match params k with
    | some value => some value
    | none => p k

/-- The function `line_search` of `lnsearch.h`; `Except.error` is the `throw`. -/
def line_search {α : Type} [LinearOrderedField α] (sqrt : α → α) (fuel : Nat)
    (method_name : String) (x0 d : Vec α) (f : Vec α → α) (g : Vec α → Vec α)
    (params : ParamMap α) : Except String (Option α) :=
  if method_name = "armijo" then
    let p : ParamMap α := ParamMap.empty
    let p := p.set "steepness" (1 / 10000)
    let p := p.set "initial_step" 1
    let p := p.rest params
    Except.ok (armijo sqrt fuel x0 d f g (p.get "steepness") (p.get "initial_step"))
  else if method_name = "wolfe" then
    let p : ParamMap α := ParamMap.empty
    let p := p.set "steepness" (1 / 10000)
    let p := p.set "initial_step" 1
    let p := p.set "sigma" (9 / 10)
    let p := p.set "xi" (1 / 1000)
    let p := p.set "max_step" 10000000000
    let p := p.set "step_factor" 10
    let p := p.rest params
    Except.ok (wolfe sqrt fuel x0 d f g (p.get "steepness") (p.get "initial_step")
      (p.get "sigma") (p.get "xi") (p.get "max_step") (p.get "step_factor"))
  else if method_name = "strong_wolfe" then
    let p : ParamMap α := ParamMap.empty
    let p := p.set "steepness" (1 / 10000)
    let p := p.set "initial_step" 1
    let p := p.set "sigma" (1 / 10)
    let p := p.set "xi" (1 / 1000)
    let p := p.set "max_step" 10000000000
    let p := p.set "step_factor" 10
    let p := p.rest params
    Except.ok (strong_wolfe sqrt fuel x0 d f g (p.get "steepness") (p.get "initial_step")
      (p.get "sigma") (p.get "xi") (p.get "max_step") (p.get "step_factor"))
  else if method_name = "goldstein" then
    let p : ParamMap α := ParamMap.empty
    let p := p.set "steepness" (1 / 10000)
    let p := p.set "initial_step" 1
    let p := p.set "gamma" (11 / 10)
    let p := p.rest params
    Except.ok (goldstein fuel x0 d f g (p.get "steepness") (p.get "initial_step")
      (p.get "gamma"))
  else if method_name = "fixed_line_search" then
    let p : ParamMap α := ParamMap.empty
    let p := p.set "initial_step" 1
    let p := p.rest params
    Except.ok (some (fixed_line_search (p.get "initial_step")))
  else if method_name = "binary" then
    let p : ParamMap α := ParamMap.empty
    let p := p.set "initial_step" 1
    let p := p.rest params
    Except.ok (binary fuel x0 d f (p.get "initial_step"))
  else
    Except.error "unknown method name"

/-- Bracket invariant of the `goldstein` loop: `0 ≤ a1 < a`, and `a < a2` once a
finite upper bound has been set. -/
def GoldsteinBracketInv {α : Type} [LinearOrderedField α] (s : GoldsteinState α) : Prop :=
  0 ≤ s.a1 ∧ s.a1 < s.a ∧ (s.a2inf = false → s.a < s.a2)

/-! ## Benchmark functions (`functions.h`) -/

/-- Modelled from the spec: `la::mat<real>` of `la.h`, which is not among the
source files: a matrix as the list of its rows. -/
abbrev Mat (α : Type) := List (List α)

/-- Modelled from the spec: the constructor `la::mat<real> z(n, m, 0.0)` of `la.h`,
an `n × m` matrix of zeros. -/
def Mat.zeros {α : Type} [Zero α] (n m : Nat) : Mat α := List.replicate n (List.replicate m 0)

/-- Modelled from the spec: the read `z[i][j]` of `la.h`. -/
def Mat.get {α : Type} [Zero α] (z : Mat α) (i j : Nat) : α := (z.getD i []).getD j 0

/-- Modelled from the spec: the assignment `z[i][j] = x` of `la.h`. -/
def Mat.set {α : Type} (z : Mat α) (i j : Nat) (x : α) : Mat α :=
  List.set z i ((z.getD i []).set j x)

/-- The values of `i` in `for (size_t i = lo; i < hi; i += step)`, in order. -/
def loopIndices (lo hi step : Nat) : List Nat :=
  List.range' lo ((hi - lo + step - 1) / step) step

/-- The function `extended_psc1_f` of `functions.h`; `sin` and `cos` are the
library functions of `<cmath>`, `Except.error` is the `throw`. -/
def extended_psc1_f {α : Type} [LinearOrderedField α] (sin cos : α → α) (v : Vec α) :
    Except String α :=
  if v.length % 2 ≠ 0 ∨ v.length = 0 then
    Except.error "extended_psc1: n must be even and positive"
  else
    Except.ok ((loopIndices 0 v.length 2).foldl
      (fun z i =>
        let t : α := v.getD i 0 * v.getD i 0 + v.getD (i + 1) 0 * v.getD (i + 1) 0
          + v.getD i 0 * v.getD (i + 1) 0
        let z : α := z + t * t
        let t : α := sin (v.getD i 0)
        let z : α := z + t * t
        let t : α := cos (v.getD (i + 1) 0)
        z + t * t)
      0)

/-- The function `extended_psc1_g` of `functions.h`. -/
def extended_psc1_g {α : Type} [LinearOrderedField α] (sin cos : α → α) (v : Vec α) :
    Except String (Vec α) :=
  if v.length % 2 ≠ 0 ∨ v.length = 0 then
    Except.error "extended_psc1: n must be even and positive"
  else
    Except.ok ((loopIndices 0 v.length 2).foldl
      (fun z i =>
        let t : α := v.getD i 0 * v.getD i 0 + v.getD (i + 1) 0 * v.getD (i + 1) 0
          + v.getD i 0 * v.getD (i + 1) 0
        let z : Vec α := z.set i (z.getD i 0 + 2 * t * (2 * v.getD i 0 + v.getD (i + 1) 0))
        let z : Vec α := z.set i (z.getD i 0 + 2 * sin (v.getD i 0) * cos (v.getD i 0))
        let z : Vec α :=
          z.set (i + 1) (z.getD (i + 1) 0 + 2 * t * (2 * v.getD (i + 1) 0 + v.getD i 0))
        z.set (i + 1) (z.getD (i + 1) 0 - 2 * cos (v.getD (i + 1) 0) * sin (v.getD (i + 1) 0)))
      (List.replicate v.length 0))

/-- The function `extended_psc1_h` of `functions.h`. -/
def extended_psc1_h {α : Type} [LinearOrderedField α] (sin cos : α → α) (v : Vec α) :
    Except String (Mat α) :=
  if v.length % 2 ≠ 0 ∨ v.length = 0 then
    Except.error "extended_psc1: n must be even and positive"
  else
    Except.ok ((loopIndices 0 v.length 2).foldl
      (fun z i =>
        let a : α := v.getD i 0
        let b : α := v.getD (i + 1) 0
        let z : Mat α := z.set i i
          (2 * (2 * a + b) * (2 * a + b) + 4 * (a * a + a * b + b * b)
            + 2 * cos a * cos a - 2 * sin a * sin a)
        let z : Mat α := z.set (i + 1) i
          (2 * (2 * a + b) * (a + 2 * b) + 2 * (a * a + a * b + b * b))
        let z : Mat α := z.set i (i + 1) (z.get (i + 1) i)
        z.set (i + 1) (i + 1)
          (2 * (a + 2 * b) * (a + 2 * b) + 4 * (a * a + a * b + b * b)
            - 2 * cos b * cos b + 2 * sin b * sin b))
      (Mat.zeros v.length v.length))

/-- The function `full_hessian_fh2_f` of `functions.h`; the loop state is the
pair `(z, ps)`. -/
def full_hessian_fh2_f {α : Type} [LinearOrderedField α] (v : Vec α) : Except String α :=
  if v.length = 0 then
    Except.error "full_hessian_fh2: n must be positive"
  else
    let z : α := v.getD 0 0 - 5
    let z : α := z * z
    let ps : α := v.getD 0 0
    Except.ok ((loopIndices 1 v.length 1).foldl
      (fun (s : α × α) i =>
        let ps : α := s.2 + v.getD i 0
        (s.1 + (ps - 1) * (ps - 1), ps))
      (z, ps)).1

/-- The prefix sums `ps` computed by the first loop of `full_hessian_fh2_g`. -/
def full_hessian_fh2_ps {α : Type} [LinearOrderedField α] (v : Vec α) : Vec α :=
  (loopIndices 1 v.length 1).foldl
    (fun ps i => ps.set i (ps.getD (i - 1) 0 + v.getD i 0))
    ((List.replicate v.length (0 : α)).set 0 (v.getD 0 0))

/-- The value of `t` after the second loop of `full_hessian_fh2_g`. -/
def full_hessian_fh2_t {α : Type} [LinearOrderedField α] (v : Vec α) : α :=
  (loopIndices 0 v.length 1).foldl
    (fun t i => t + ((v.length - i : Nat) : α) * v.getD i 0 * 2)
    (-2 * (v.length : α))

/-- The function `full_hessian_fh2_g` of `functions.h`; the state of the last
loop is the pair `(t, z)`. -/
def full_hessian_fh2_g {α : Type} [LinearOrderedField α] (v : Vec α) : Except String (Vec α) :=
  if v.length = 0 then
    Except.error "full_hessian_fh2: n must be positive"
  else
    let z : Vec α := List.replicate v.length 0
    let ps : Vec α := full_hessian_fh2_ps v
    let t : α := full_hessian_fh2_t v
    let z : Vec α := z.set 0 (t - 8)
    Except.ok ((loopIndices 1 v.length 1).foldl
      (fun (s : α × Vec α) i =>
        let t : α := s.1 - 2 * ps.getD (i - 1) 0
        let t : α := t + 2
        (t, s.2.set i t))
      (t, z)).2

/-! ## The gradient of `full_hessian_fh2` as the spec states it -/

/-- The prefix sum `v_0 + … + v_i`. -/
def fh2_psum {α : Type} [LinearOrderedField α] (v : Vec α) (i : Nat) : α :=
  ∑ j in Finset.range (i + 1), v.getD j 0

/-- The value `(v_0 − 5)² + Σ_{i=1}^{n−1} (v_0 + … + v_i − 1)²` that the spec gives
for `full_hessian_fh2_f`. -/
def fh2_value_spec {α : Type} [LinearOrderedField α] (v : Vec α) : α :=
  (v.getD 0 0 - 5) ^ 2 + ∑ i in Finset.Ico 1 v.length, (fh2_psum v i - 1) ^ 2

/-- The partial derivative
`2·(v_0 − 5)·[k = 0] + Σ_{i = max(k,1)}^{n−1} 2·(v_0 + … + v_i − 1)` that the
spec gives for component `k` of `full_hessian_fh2_g`. -/
def fh2_gradient_spec {α : Type} [LinearOrderedField α] (v : Vec α) (k : Nat) : α :=
  (if k = 0 then 2 * (v.getD 0 0 - 5) else 0)
    + ∑ i in Finset.Ico (max k 1) v.length, 2 * (fh2_psum v i - 1)

/-- A matrix has `n` rows of length `m`. -/
def Mat.Shape {α : Type} (z : Mat α) (n m : Nat) : Prop :=
  z.length = n ∧ ∀ row ∈ z, row.length = m

/-! ## Test oracle for two shrinks of `armijo` -/

/-- Test objective for the shrinks of `armijo`: the cubic `-5x³ + 24x² - 9x` of the
first component. -/
def shrink_f (v : Vec ℚ) : ℚ :=
  (fun x : ℚ => 24 * x ^ 2 - 5 * x ^ 3 - 9 * x) (v.headD 0)

/-- Gradient of `shrink_f`. -/
def shrink_g (v : Vec ℚ) : Vec ℚ :=
  [(fun x : ℚ => 48 * x - 15 * x ^ 2 - 9) (v.headD 0)]

/-! ## Theorems -/

variable {α : Type} [LinearOrderedField α]

/-- Claim C9: for `t1 < t2` the value returned by `interp` lies in `[t1, t2]`,
whatever the other arguments and whatever `sqrt` computes; in particular the
result for `t1=0, t2=1, val1=1, val2=0, der1=-1, der2=1` lies in `[0, 1]`. -/
theorem interp_mem_Icc (sqrt : α → α)
    (t1 t2 val1 val2 der1 der2 : α) (h : t1 < t2) :
    t1 ≤ interp sqrt t1 t2 val1 val2 der1 der2 ∧
      interp sqrt t1 t2 val1 val2 der1 der2 ≤ t2 := by
  unfold interp
  simp only
  split_ifs with hc
  · exact ⟨le_refl _, le_of_lt h⟩
  · push_neg at hc
    exact hc

/-- Witness of C9 at the spec's test input, over `ℚ` with `Rat.sqrt`. -/
theorem interp_mem_Icc_witness :
    (0 : ℚ) ≤ interp Rat.sqrt 0 1 1 0 (-1) 1 ∧ interp Rat.sqrt 0 1 1 0 (-1) 1 ≤ 1 :=
  interp_mem_Icc Rat.sqrt 0 1 1 0 (-1) 1 (by norm_num)


/-! ### `goldstein` -/

theorem goldstein_loop_mono (x0 d : Vec α) (f : Vec α → α) (f0 pad steepness gamma : α)
    (fuel : Nat) : ∀ (s r : GoldsteinState α),
    goldstein_loop x0 d f f0 pad steepness gamma fuel s = some r →
    goldstein_loop x0 d f f0 pad steepness gamma (fuel + 1) s = some r := by
  induction fuel with
  | zero =>
    intro s r h
    simp only [goldstein_loop] at h ⊢
    by_cases h1 : s.steps < 52
    · simp [h1] at h
    · simpa [h1] using h
  | succ n ih =>
    intro s r h
    rw [goldstein_loop] at h
    rw [goldstein_loop]
    by_cases h1 : s.steps < 52
    · rw [if_pos h1] at h ⊢
      by_cases h2 : s.ff > f0 + steepness * s.a * pad
      · rw [if_pos h2] at h ⊢
        exact ih _ _ h
      · rw [if_neg h2] at h ⊢
        by_cases h3 : s.ff < f0 + (1 - steepness) * s.a * pad
        · rw [if_pos h3] at h ⊢
          exact ih _ _ h
        · rw [if_neg h3] at h ⊢
          exact h
    · rw [if_neg h1] at h ⊢
      exact h

theorem goldstein_loop_mono_le (x0 d : Vec α) (f : Vec α → α) (f0 pad steepness gamma : α)
    (fuel fuel' : Nat) (hle : fuel ≤ fuel') (s r : GoldsteinState α)
    (h : goldstein_loop x0 d f f0 pad steepness gamma fuel s = some r) :
    goldstein_loop x0 d f f0 pad steepness gamma fuel' s = some r := by
  induction hle with
  | refl => exact h
  | step _ ih => exact goldstein_loop_mono x0 d f f0 pad steepness gamma _ s r ih

theorem goldstein_loop_spec (x0 d : Vec α) (f : Vec α → α) (f0 pad steepness gamma : α)
    (fuel : Nat) : ∀ (s : GoldsteinState α), GoldsteinInv x0 d f s → 52 - s.steps ≤ fuel →
    ∃ r, goldstein_loop x0 d f f0 pad steepness gamma fuel s = some r ∧
      GoldsteinInv x0 d f r ∧
      (r.steps < 52 →
        ¬ (r.ff > f0 + steepness * r.a * pad) ∧ ¬ (r.ff < f0 + (1 - steepness) * r.a * pad)) := by
  induction fuel with
  | zero =>
    intro s hinv hfuel
    have h52 : ¬ s.steps < 52 := by omega
    exact ⟨s, by simp only [goldstein_loop, h52, if_false], hinv, fun h => absurd h h52⟩
  | succ n ih =>
    intro s hinv hfuel
    obtain ⟨hff, h1, h52, hlen, hlast⟩ := hinv
    rw [goldstein_loop]
    by_cases hlt : s.steps < 52
    · rw [if_pos hlt]
      by_cases hup : s.ff > f0 + steepness * s.a * pad
      · rw [if_pos hup]
        apply ih
        · refine ⟨rfl, ?_, ?_, ?_, ?_⟩
          · simp only; omega
          · simp only; omega
          · simp only [List.length_append, List.length_singleton, hlen]
          · simp
        · simp only; omega
      · rw [if_neg hup]
        by_cases hlo : s.ff < f0 + (1 - steepness) * s.a * pad
        · rw [if_pos hlo]
          apply ih
          · refine ⟨rfl, ?_, ?_, ?_, ?_⟩
            · simp only; omega
            · simp only; omega
            · simp only [List.length_append, List.length_singleton, hlen]
            · simp
          · simp only; omega
        · rw [if_neg hlo]
          exact ⟨s, rfl, ⟨hff, h1, h52, hlen, hlast⟩, fun _ => ⟨hup, hlo⟩⟩
    · rw [if_neg hlt]
      exact ⟨s, rfl, ⟨hff, h1, h52, hlen, hlast⟩, fun h => absurd h hlt⟩

/-- Claim C6: when the loop of `goldstein` stops before the cap (the final `steps`
is below 52, which only the `break` branch leaves behind), the returned step
satisfies both Goldstein inequalities
`f0 + (1-steepness)*a*pad ≤ f(x0+a*d) ≤ f0 + steepness*a*pad`. -/
theorem goldstein_break_inequalities (fuel : Nat) (x0 d : Vec α) (f : Vec α → α)
    (g : Vec α → Vec α) (steepness initial_step gamma : α) (s : GoldsteinState α)
    (h : goldstein_run fuel x0 d f g steepness initial_step gamma = some s)
    (hcap : s.steps < 52) :
    goldstein fuel x0 d f g steepness initial_step gamma = some s.a ∧
    f x0 + (1 - steepness) * s.a * Vec.dot (g x0) d ≤ f (Vec.add x0 (Vec.smul d s.a)) ∧
    f (Vec.add x0 (Vec.smul d s.a)) ≤ f x0 + steepness * s.a * Vec.dot (g x0) d := by
  refine ⟨by simp only [goldstein, h, Option.map_some'], ?_⟩
  unfold goldstein_run at h
  simp only at h
  have hinv : GoldsteinInv x0 d f
      ({ a1 := 0, a2 := 0, a := initial_step, a2inf := true,
         ff := f (Vec.add x0 (Vec.smul d initial_step)), steps := 1,
         evals := [initial_step] } : GoldsteinState α) :=
    ⟨rfl, le_refl _, by norm_num, rfl, rfl⟩
  obtain ⟨r, hr, hrinv, hrineq⟩ :=
    goldstein_loop_spec x0 d f (f x0) (Vec.dot (g x0) d) steepness gamma (max fuel 51) _ hinv
      (le_trans (by simp) (le_max_right fuel 51))
  have h2 := goldstein_loop_mono_le x0 d f (f x0) (Vec.dot (g x0) d) steepness gamma
    fuel (max fuel 51) (le_max_left _ _) _ _ h
  rw [h2] at hr
  cases hr
  obtain ⟨hup, hlo⟩ := hrineq hcap
  rw [hrinv.1] at hup hlo
  exact ⟨not_lt.mp hlo, not_lt.mp hup⟩

/-- Witness of C6 on `f(x) = x²`, `x0 = [1]`, `d = [-2]`: the loop breaks at
`a = 1/2` after one halving. -/
theorem goldstein_break_inequalities_witness :
    goldstein 2 [1] [-2] quadratic (fun v => v.map (fun x => 2 * x)) (1 / 10000 : ℚ) 1 (11 / 10)
      = some (1 / 2) ∧
    quadratic [(1 : ℚ)] + (1 - 1 / 10000) * (1 / 2) * Vec.dot [2 * 1] [-2] ≤
      quadratic (Vec.add [1] (Vec.smul [-2] (1 / 2))) ∧
    quadratic (Vec.add [(1 : ℚ)] (Vec.smul [-2] (1 / 2))) ≤
      quadratic [1] + 1 / 10000 * (1 / 2) * Vec.dot [2 * 1] [-2] :=
  goldstein_break_inequalities 2 [1] [-2] quadratic (fun v => v.map (fun x => 2 * x))
    (1 / 10000 : ℚ) 1 (11 / 10)
    { a1 := 0, a2 := 1, a := 1 / 2, a2inf := false, ff := 0, steps := 2, evals := [1, 1 / 2] }
    (by norm_num [goldstein_run, goldstein_loop, quadratic, Vec.add, Vec.smul, Vec.dot])
    (by norm_num)

/-- Claim C7: `goldstein` terminates for all inputs: 51 entries into the loop body
(hence at most 52) always suffice and more fuel does not change the result;
at most 52 trial steps are evaluated, and the step returned is the last trial
step evaluated, also when the cap of 52 is reached. -/
theorem goldstein_terminates (x0 d : Vec α) (f : Vec α → α) (g : Vec α → Vec α)
    (steepness initial_step gamma : α) :
    ∃ s : GoldsteinState α,
      (∀ fuel, 51 ≤ fuel →
        goldstein_run fuel x0 d f g steepness initial_step gamma = some s ∧
        goldstein fuel x0 d f g steepness initial_step gamma = some s.a) ∧
      s.steps ≤ 52 ∧ s.evals.length = s.steps ∧ s.evals.getLast? = some s.a := by
  have hinv : GoldsteinInv x0 d f
      ({ a1 := 0, a2 := 0, a := initial_step, a2inf := true,
         ff := f (Vec.add x0 (Vec.smul d initial_step)), steps := 1,
         evals := [initial_step] } : GoldsteinState α) :=
    ⟨rfl, le_refl _, by norm_num, rfl, rfl⟩
  obtain ⟨r, hr, hrinv, -⟩ :=
    goldstein_loop_spec x0 d f (f x0) (Vec.dot (g x0) d) steepness gamma 51 _ hinv (by simp)
  refine ⟨r, fun fuel hfuel => ?_, hrinv.2.2.1, hrinv.2.2.2.1, hrinv.2.2.2.2⟩
  have h2 := goldstein_loop_mono_le x0 d f (f x0) (Vec.dot (g x0) d) steepness gamma
    51 fuel hfuel _ _ hr
  have h3 : goldstein_run fuel x0 d f g steepness initial_step gamma = some r := h2
  exact ⟨h3, by simp only [goldstein, h3, Option.map_some']⟩

/-! ### `armijo` -/

theorem armijo_loop_spec (sqrt : α → α) (x0 d : Vec α) (f : Vec α → α) (f0 pad steepness : α)
    (fuel : Nat) : ∀ (s r : ArmijoState α),
    s.f_curr = f (Vec.add x0 (Vec.smul d s.a_curr)) →
    armijo_loop sqrt x0 d f f0 pad steepness fuel s = some r →
    r.f_curr = f (Vec.add x0 (Vec.smul d r.a_curr)) ∧
      ¬ (r.f_curr > f0 - steepness * r.a_curr * pad) := by
  induction fuel with
  | zero => intro s r _ h; simp [armijo_loop] at h
  | succ n ih =>
    intro s r hs h
    rw [armijo_loop] at h
    by_cases hc : s.f_curr > f0 - steepness * s.a_curr * pad
    · rw [if_pos hc] at h
      cases hn : armijo_a_new sqrt f0 pad s.a_curr s.a_prev s.f_curr s.f_prev s.steps with
      | none => rw [hn] at h; simp at h
      | some a_new =>
        rw [hn] at h
        exact ih _ _ rfl h
    · rw [if_neg hc] at h
      cases h
      exact ⟨hs, hc⟩

/-- Claim C5: a step returned by `armijo` satisfies
`f(x0+a*d) ≤ f(x0) - steepness*a*pad0` with `pad0 = g(x0)·d`; the gradient is
used at `x0` only (no curvature test); and when the inequality holds at
`initial_step` the function returns `initial_step`, having called `f` at `x0`
and `x0 + initial_step*d` only. -/
theorem armijo_accepts (sqrt : α → α) (x0 d : Vec α) (f : Vec α → α) (g : Vec α → Vec α)
    (steepness initial_step : α) :
    (∀ (fuel : Nat) (s : ArmijoState α),
      armijo_run sqrt fuel x0 d f g steepness initial_step = some s →
        armijo sqrt fuel x0 d f g steepness initial_step = some s.a_curr ∧
        f (Vec.add x0 (Vec.smul d s.a_curr)) ≤
          f x0 - steepness * s.a_curr * Vec.dot (g x0) d) ∧
    (∀ (g' : Vec α → Vec α), g' x0 = g x0 → ∀ fuel : Nat,
      armijo_run sqrt fuel x0 d f g' steepness initial_step =
        armijo_run sqrt fuel x0 d f g steepness initial_step) ∧
    (f (Vec.add x0 (Vec.smul d initial_step)) ≤
        f x0 - steepness * initial_step * Vec.dot (g x0) d →
      ∀ fuel : Nat, ∃ s : ArmijoState α,
        armijo_run sqrt (fuel + 1) x0 d f g steepness initial_step = some s ∧
        armijo sqrt (fuel + 1) x0 d f g steepness initial_step = some initial_step ∧
        s.a_curr = initial_step ∧
        s.evals = [x0, Vec.add x0 (Vec.smul d initial_step)]) := by
  refine ⟨?_, ?_, ?_⟩
  · intro fuel s h
    refine ⟨by simp only [armijo, h, Option.map_some'], ?_⟩
    unfold armijo_run at h
    simp only at h
    obtain ⟨h1, h2⟩ := armijo_loop_spec sqrt x0 d f _ _ steepness fuel _ s rfl h
    rw [h1] at h2
    exact not_lt.mp h2
  · intro g' hg fuel
    simp only [armijo_run, hg]
  · intro hacc fuel
    have hc : ¬ (f (Vec.add x0 (Vec.smul d initial_step)) >
        f x0 - steepness * initial_step * Vec.dot (g x0) d) := not_lt.mpr hacc
    have hrun : armijo_run sqrt (fuel + 1) x0 d f g steepness initial_step =
        some { a_curr := initial_step, f_curr := f (Vec.add x0 (Vec.smul d initial_step)),
               a_prev := 0, f_prev := 0, steps := 1,
               evals := [x0, Vec.add x0 (Vec.smul d initial_step)] } := by
      simp only [armijo_run, armijo_loop, if_neg hc]
    exact ⟨_, hrun, by simp only [armijo, hrun, Option.map_some'], rfl, rfl⟩

/-- Witness of C5 on `f(x) = x²`, `x0 = [1]`, `d = [-2]`, `initial_step = 1`. -/
theorem armijo_accepts_witness :
    armijo Rat.sqrt 1 [1] [-2] quadratic (fun v => v.map (fun x => 2 * x)) (1 / 10000 : ℚ) 1
      = some 1 ∧
    quadratic (Vec.add [(1 : ℚ)] (Vec.smul [-2] 1)) ≤
      quadratic [1] - 1 / 10000 * 1 * Vec.dot [2 * 1] [-2] :=
  (armijo_accepts Rat.sqrt [1] [-2] quadratic (fun v => v.map (fun x => 2 * x))
    (1 / 10000 : ℚ) 1).1 1
    { a_curr := 1, f_curr := 1, a_prev := 0, f_prev := 0, steps := 1, evals := [[1], [-1]] }
    (by norm_num [armijo_run, armijo_loop, quadratic, Vec.add, Vec.smul, Vec.dot])

/-- Claim C4, the code at the failing input: on `f(x) = x²`, `x0 = [1]`, `d = [-2]`
with the default options `armijo` returns the step `1`, for which
`f(x0+a*d) = 1` exceeds `f(x0) + steepness*a*(g(x0)·d) = 1 - 4/10000`. -/
theorem armijo_sign_slip :
    armijo Rat.sqrt 1 [1] [-2] quadratic (fun v => v.map (fun x => 2 * x)) (1 / 10000 : ℚ) 1
      = some 1 ∧
    ¬ (quadratic (Vec.add [(1 : ℚ)] (Vec.smul [-2] 1)) ≤
      quadratic [1] + 1 / 10000 * 1 * Vec.dot (([1] : Vec ℚ).map (fun x => 2 * x)) [-2]) := by
  norm_num [armijo, armijo_run, armijo_loop, quadratic, Vec.add, Vec.smul, Vec.dot]

/-! ### `wolfe` and `strong_wolfe` -/

theorem wolfe_noc_zoom_mono (sqrt : α → α) (x0 d : Vec α) (f : Vec α → α) (g : Vec α → Vec α)
    (f0 pad0 steepness sigma xi : α) (fuel : Nat) : ∀ (b : Bracket α) (r : α × Exit),
    wolfe_noc_zoom sqrt x0 d f g f0 pad0 steepness sigma xi fuel b = some r →
    wolfe_noc_zoom sqrt x0 d f g f0 pad0 steepness sigma xi (fuel + 1) b = some r := by
  induction fuel with
  | zero => intro b r h; simp [wolfe_noc_zoom] at h
  | succ n ih =>
    intro b r h
    rw [wolfe_noc_zoom] at h
    rw [wolfe_noc_zoom]
    generalize (if b.a1 < b.a2 then interp sqrt b.a1 b.a2 b.f1 b.f2 b.pad1 b.pad2
      else interp sqrt b.a2 b.a1 b.f2 b.f1 b.pad2 b.pad1) = a at h ⊢
    split_ifs at h ⊢ with h1 h2 h3
    · exact h
    · exact ih _ _ h
    · exact h
    · exact ih _ _ h

theorem wolfe_loop_mono (sqrt : α → α) (x0 d : Vec α) (f : Vec α → α) (g : Vec α → Vec α)
    (f0 pad0 steepness sigma xi max_step step_factor : α) (fuel : Nat) :
    ∀ (b : Bracket α) (steps : Nat) (r : α × Exit),
    wolfe_loop sqrt x0 d f g f0 pad0 steepness sigma xi max_step step_factor fuel b steps
      = some r →
    wolfe_loop sqrt x0 d f g f0 pad0 steepness sigma xi max_step step_factor (fuel + 1) b steps
      = some r := by
  induction fuel with
  | zero => intro b steps r h; simp [wolfe_loop] at h
  | succ n ih =>
    intro b steps r h
    rw [wolfe_loop] at h
    rw [wolfe_loop]
    split_ifs at h ⊢ with h1 h2
    · exact wolfe_noc_zoom_mono sqrt x0 d f g f0 pad0 steepness sigma xi n b r h
    · exact h
    · exact ih _ _ _ h

theorem wolfe_exit_mono (sqrt : α → α) (x0 d : Vec α) (f : Vec α → α) (g : Vec α → Vec α)
    (steepness initial_step sigma xi max_step step_factor : α) (fuel fuel' : Nat)
    (hle : fuel ≤ fuel') (r : α × Exit)
    (h : wolfe_exit sqrt fuel x0 d f g steepness initial_step sigma xi max_step step_factor
      = some r) :
    wolfe_exit sqrt fuel' x0 d f g steepness initial_step sigma xi max_step step_factor
      = some r := by
  induction hle with
  | refl => exact h
  | step _ ih => exact wolfe_loop_mono sqrt x0 d f g _ _ steepness sigma xi max_step step_factor _ _ _ r ih

/-- Armijo at every exit of the zoom of `wolfe` other than the stall exit. -/
theorem wolfe_noc_zoom_armijo (sqrt : α → α) (x0 d : Vec α) (f : Vec α → α) (g : Vec α → Vec α)
    (f0 pad0 steepness sigma xi : α) (fuel : Nat) : ∀ (b : Bracket α) (a : α) (e : Exit),
    wolfe_noc_zoom sqrt x0 d f g f0 pad0 steepness sigma xi fuel b = some (a, e) →
    e ≠ Exit.zoom_stall →
    f (Vec.add x0 (Vec.smul d a)) ≤ f0 + steepness * a * pad0 := by
  induction fuel with
  | zero => intro b a e h; simp [wolfe_noc_zoom] at h
  | succ n ih =>
    intro b a e h he
    rw [wolfe_noc_zoom] at h
    generalize (if b.a1 < b.a2 then interp sqrt b.a1 b.a2 b.f1 b.f2 b.pad1 b.pad2
      else interp sqrt b.a2 b.a1 b.f2 b.f1 b.pad2 b.pad1) = t at h
    split_ifs at h with h1 h2 h3
    · simp only [Option.some.injEq, Prod.mk.injEq] at h
      exact absurd h.2.symm he
    · exact ih _ _ _ h he
    · simp only [Option.some.injEq, Prod.mk.injEq] at h
      obtain ⟨rfl, -⟩ := h
      push_neg at h2
      exact h2.1
    · exact ih _ _ _ h he

theorem wolfe_loop_armijo (sqrt : α → α) (x0 d : Vec α) (f : Vec α → α) (g : Vec α → Vec α)
    (f0 pad0 steepness sigma xi max_step step_factor : α) (fuel : Nat) :
    ∀ (b : Bracket α) (steps : Nat) (a : α) (e : Exit),
    b.f2 = f (Vec.add x0 (Vec.smul d b.a2)) →
    wolfe_loop sqrt x0 d f g f0 pad0 steepness sigma xi max_step step_factor fuel b steps
      = some (a, e) →
    e ≠ Exit.zoom_stall →
    f (Vec.add x0 (Vec.smul d a)) ≤ f0 + steepness * a * pad0 := by
  induction fuel with
  | zero => intro b steps a e _ h; simp [wolfe_loop] at h
  | succ n ih =>
    intro b steps a e hb h he
    rw [wolfe_loop] at h
    split_ifs at h with h1 h2
    · exact wolfe_noc_zoom_armijo sqrt x0 d f g f0 pad0 steepness sigma xi n b a e h he
    · simp only [Option.some.injEq, Prod.mk.injEq] at h
      obtain ⟨rfl, -⟩ := h
      push_neg at h1
      rw [← hb]
      calc b.f2 ≤ f0 + pad0 * steepness * b.a2 := h1.1
        _ = f0 + steepness * b.a2 * pad0 := by ring
    · exact ih _ _ _ _ rfl h he

theorem strong_wolfe_noc_zoom_mono (sqrt : α → α) (x0 d : Vec α) (f : Vec α → α)
    (g : Vec α → Vec α) (f0 pad0 steepness sigma xi : α) (fuel : Nat) :
    ∀ (b : Bracket α) (r : α × Exit),
    strong_wolfe_noc_zoom sqrt x0 d f g f0 pad0 steepness sigma xi fuel b = some r →
    strong_wolfe_noc_zoom sqrt x0 d f g f0 pad0 steepness sigma xi (fuel + 1) b = some r := by
  induction fuel with
  | zero => intro b r h; simp [strong_wolfe_noc_zoom] at h
  | succ n ih =>
    intro b r h
    rw [strong_wolfe_noc_zoom] at h
    rw [strong_wolfe_noc_zoom]
    generalize (if b.a1 < b.a2 then interp sqrt b.a1 b.a2 b.f1 b.f2 b.pad1 b.pad2
      else interp sqrt b.a2 b.a1 b.f2 b.f1 b.pad2 b.pad1) = a at h ⊢
    by_cases h1 : |f (Vec.add x0 (Vec.smul d a)) - b.f1| / (1 + |f (Vec.add x0 (Vec.smul d a))|) < xi ∨
        |f (Vec.add x0 (Vec.smul d a)) - b.f2| / (1 + |f (Vec.add x0 (Vec.smul d a))|) < xi
    · rw [if_pos h1] at h ⊢
      exact h
    · rw [if_neg h1] at h ⊢
      by_cases h2 : f (Vec.add x0 (Vec.smul d a)) > f0 + steepness * a * pad0 ∨
          f (Vec.add x0 (Vec.smul d a)) ≥ b.f1
      · rw [if_pos h2] at h ⊢
        exact ih _ _ h
      · rw [if_neg h2] at h ⊢
        by_cases h3 : |b.pad1| ≤ -sigma * pad0
        · rw [if_pos h3] at h ⊢
          exact h
        · rw [if_neg h3] at h ⊢
          exact ih _ _ h

theorem strong_wolfe_loop_mono (sqrt : α → α) (x0 d : Vec α) (f : Vec α → α)
    (g : Vec α → Vec α) (f0 pad0 steepness sigma xi max_step step_factor : α) (fuel : Nat) :
    ∀ (b : Bracket α) (steps : Nat) (r : α × Exit),
    strong_wolfe_loop sqrt x0 d f g f0 pad0 steepness sigma xi max_step step_factor fuel b steps
      = some r →
    strong_wolfe_loop sqrt x0 d f g f0 pad0 steepness sigma xi max_step step_factor (fuel + 1)
      b steps = some r := by
  induction fuel with
  | zero => intro b steps r h; simp [strong_wolfe_loop] at h
  | succ n ih =>
    intro b steps r h
    rw [strong_wolfe_loop] at h
    rw [strong_wolfe_loop]
    split_ifs at h ⊢ with h1 h2 h3
    · exact strong_wolfe_noc_zoom_mono sqrt x0 d f g f0 pad0 steepness sigma xi n b r h
    · exact h
    · exact strong_wolfe_noc_zoom_mono sqrt x0 d f g f0 pad0 steepness sigma xi n b r h
    · exact ih _ _ _ h

theorem strong_wolfe_exit_mono (sqrt : α → α) (x0 d : Vec α) (f : Vec α → α)
    (g : Vec α → Vec α) (steepness initial_step sigma xi max_step step_factor : α)
    (fuel fuel' : Nat) (hle : fuel ≤ fuel') (r : α × Exit)
    (h : strong_wolfe_exit sqrt fuel x0 d f g steepness initial_step sigma xi max_step
      step_factor = some r) :
    strong_wolfe_exit sqrt fuel' x0 d f g steepness initial_step sigma xi max_step step_factor
      = some r := by
  induction hle with
  | refl => exact h
  | step _ ih =>
    exact strong_wolfe_loop_mono sqrt x0 d f g _ _ steepness sigma xi max_step step_factor
      _ _ _ r ih

theorem strong_wolfe_noc_zoom_armijo (sqrt : α → α) (x0 d : Vec α) (f : Vec α → α)
    (g : Vec α → Vec α) (f0 pad0 steepness sigma xi : α) (fuel : Nat) :
    ∀ (b : Bracket α) (a : α) (e : Exit),
    strong_wolfe_noc_zoom sqrt x0 d f g f0 pad0 steepness sigma xi fuel b = some (a, e) →
    e ≠ Exit.zoom_stall →
    f (Vec.add x0 (Vec.smul d a)) ≤ f0 + steepness * a * pad0 := by
  induction fuel with
  | zero => intro b a e h; simp [strong_wolfe_noc_zoom] at h
  | succ n ih =>
    intro b a e h he
    rw [strong_wolfe_noc_zoom] at h
    generalize (if b.a1 < b.a2 then interp sqrt b.a1 b.a2 b.f1 b.f2 b.pad1 b.pad2
      else interp sqrt b.a2 b.a1 b.f2 b.f1 b.pad2 b.pad1) = t at h
    by_cases h1 : |f (Vec.add x0 (Vec.smul d t)) - b.f1| / (1 + |f (Vec.add x0 (Vec.smul d t))|) < xi ∨
        |f (Vec.add x0 (Vec.smul d t)) - b.f2| / (1 + |f (Vec.add x0 (Vec.smul d t))|) < xi
    · rw [if_pos h1] at h
      simp only [Option.some.injEq, Prod.mk.injEq] at h
      exact absurd h.2.symm he
    · rw [if_neg h1] at h
      by_cases h2 : f (Vec.add x0 (Vec.smul d t)) > f0 + steepness * t * pad0 ∨
          f (Vec.add x0 (Vec.smul d t)) ≥ b.f1
      · rw [if_pos h2] at h
        exact ih _ _ _ h he
      · rw [if_neg h2] at h
        by_cases h3 : |b.pad1| ≤ -sigma * pad0
        · rw [if_pos h3] at h
          simp only [Option.some.injEq, Prod.mk.injEq] at h
          obtain ⟨rfl, -⟩ := h
          push_neg at h2
          exact h2.1
        · rw [if_neg h3] at h
          exact ih _ _ _ h he

theorem strong_wolfe_loop_armijo (sqrt : α → α) (x0 d : Vec α) (f : Vec α → α)
    (g : Vec α → Vec α) (f0 pad0 steepness sigma xi max_step step_factor : α) (fuel : Nat) :
    ∀ (b : Bracket α) (steps : Nat) (a : α) (e : Exit),
    b.f2 = f (Vec.add x0 (Vec.smul d b.a2)) →
    strong_wolfe_loop sqrt x0 d f g f0 pad0 steepness sigma xi max_step step_factor fuel b steps
      = some (a, e) →
    e ≠ Exit.zoom_stall →
    f (Vec.add x0 (Vec.smul d a)) ≤ f0 + steepness * a * pad0 := by
  induction fuel with
  | zero => intro b steps a e _ h; simp [strong_wolfe_loop] at h
  | succ n ih =>
    intro b steps a e hb h he
    rw [strong_wolfe_loop] at h
    split_ifs at h with h1 h2 h3
    · exact strong_wolfe_noc_zoom_armijo sqrt x0 d f g f0 pad0 steepness sigma xi n b a e h he
    · simp only [Option.some.injEq, Prod.mk.injEq] at h
      obtain ⟨rfl, -⟩ := h
      push_neg at h1
      rw [← hb]
      calc b.f2 ≤ f0 + pad0 * steepness * b.a2 := h1.1
        _ = f0 + steepness * b.a2 * pad0 := by ring
    · exact strong_wolfe_noc_zoom_armijo sqrt x0 d f g f0 pad0 steepness sigma xi n b a e h he
    · exact ih _ _ _ _ rfl h he

/-- Claim C3, amended: a step that `wolfe` or `strong_wolfe` returns by accepting
`a2` in the bracketing loop or by acceptance inside the zoom phase satisfies
sufficient decrease, `f(x0+a*d) ≤ f(x0) + steepness*a*(g(x0)·d)`. -/
theorem wolfe_accepted_sufficient_decrease (sqrt : α → α) (x0 d : Vec α) (f : Vec α → α)
    (g : Vec α → Vec α) (steepness initial_step sigma xi max_step step_factor : α)
    (fuel : Nat) (a : α) (e : Exit) (he : e ≠ Exit.zoom_stall)
    (h : wolfe_exit sqrt fuel x0 d f g steepness initial_step sigma xi max_step step_factor
        = some (a, e) ∨
      strong_wolfe_exit sqrt fuel x0 d f g steepness initial_step sigma xi max_step step_factor
        = some (a, e)) :
    f (Vec.add x0 (Vec.smul d a)) ≤ f x0 + steepness * a * Vec.dot (g x0) d := by
  rcases h with h | h
  · exact wolfe_loop_armijo sqrt x0 d f g _ _ steepness sigma xi max_step step_factor fuel
      _ 1 a e rfl h he
  · exact strong_wolfe_loop_armijo sqrt x0 d f g _ _ steepness sigma xi max_step step_factor
      fuel _ 1 a e rfl h he

/-! ### `interp` on the defined path -/

theorem IsSqrt.sqrt_mul_self {sqrt : α → α} (hs : IsSqrt sqrt) (y : α) (hy : 0 ≤ y) :
    sqrt (y * y) = y := by
  obtain ⟨h0, h1⟩ := hs (y * y) (mul_nonneg hy hy)
  have h2 : (sqrt (y * y) - y) * (sqrt (y * y) + y) = 0 := by ring_nf; ring_nf at h1; rw [h1]; ring
  rcases mul_eq_zero.mp h2 with h | h
  · exact sub_eq_zero.mp h
  · have : y = 0 := by linarith
    have h3 : sqrt (y * y) = 0 := by linarith
    rw [h3, this]

/-- The value of `interp` on the defined path. -/
theorem interp_eq_of_defined (sqrt : α → α) (t1 t2 val1 val2 der1 der2 : α)
    (ht : t1 - t2 ≠ 0)
    (hD : 0 ≤ (der1 + der2 - 3 * (val1 - val2) / (t1 - t2)) *
        (der1 + der2 - 3 * (val1 - val2) / (t1 - t2)) - der1 * der2)
    (hden : der2 - der1 + 2 * sqrt ((der1 + der2 - 3 * (val1 - val2) / (t1 - t2)) *
        (der1 + der2 - 3 * (val1 - val2) / (t1 - t2)) - der1 * der2) ≠ 0)
    (c : α)
    (hc : c = t2 - (t2 - t1) * (der2 + sqrt ((der1 + der2 - 3 * (val1 - val2) / (t1 - t2)) *
        (der1 + der2 - 3 * (val1 - val2) / (t1 - t2)) - der1 * der2) -
          (der1 + der2 - 3 * (val1 - val2) / (t1 - t2))) /
        (der2 - der1 + 2 * sqrt ((der1 + der2 - 3 * (val1 - val2) / (t1 - t2)) *
        (der1 + der2 - 3 * (val1 - val2) / (t1 - t2)) - der1 * der2)))
    (h0 : 0 ≤ c) (h1 : t1 ≤ c) (h2 : c ≤ t2) :
    interp sqrt t1 t2 val1 val2 der1 der2 = c := by
  have htmp : interp_tmp sqrt t1 t2 val1 val2 der1 der2 = some c := by
    simp only [interp_tmp, if_neg ht, if_neg (not_lt.mpr hD), if_neg hden, hc]
  simp only [interp, htmp, ge_iff_le, h0, if_true]
  rw [if_neg]
  push_neg
  exact ⟨h1, h2⟩

theorem interp_quadratic_first (sqrt : α → α) (hs : IsSqrt sqrt) (n : α) (hn : 0 < n) :
    interp sqrt 0 1 n n (-4 * n) (4 * n) = 1 / 2 := by
  have hD : (-4 * n + 4 * n - 3 * (n - n) / (0 - 1)) * (-4 * n + 4 * n - 3 * (n - n) / (0 - 1))
      - -4 * n * (4 * n) = (4 * n) * (4 * n) := by ring
  have hr := hs.sqrt_mul_self (4 * n) (by linarith)
  apply interp_eq_of_defined
  · norm_num
  · rw [hD]; positivity
  · rw [hD, hr]; intro h; linarith
  · rw [hD, hr]; field_simp; ring
  · norm_num
  · norm_num
  · norm_num

theorem interp_quadratic_second (sqrt : α → α) (hs : IsSqrt sqrt) (n : α) (hn : 0 < n) :
    interp sqrt (1 / 2) 1 0 n 0 (4 * n) = 1 / 2 := by
  have hD : (0 + 4 * n - 3 * (0 - n) / (1 / 2 - 1)) * (0 + 4 * n - 3 * (0 - n) / (1 / 2 - 1))
      - 0 * (4 * n) = (2 * n) * (2 * n) := by ring
  have hr := hs.sqrt_mul_self (2 * n) (by linarith)
  apply interp_eq_of_defined
  · norm_num
  · rw [hD]; positivity
  · rw [hD, hr]; intro h; linarith
  · rw [hD, hr]; field_simp; ring
  · norm_num
  · norm_num
  · norm_num

/-! ### The quadratic `‖x‖²` along the steepest-descent line -/

theorem quadratic_foldl (v : Vec α) (z : α) :
    v.foldl (fun z x => z + x * x) z = z + (v.map (fun x => x * x)).sum := by
  induction v generalizing z with
  | nil => simp
  | cons x xs ih => simp only [List.foldl_cons, ih, List.map_cons, List.sum_cons]; ring

theorem quadratic_eq_sum (v : Vec α) : quadratic v = (v.map (fun x => x * x)).sum := by
  simp only [quadratic, quadratic_foldl, zero_add]

theorem quadratic_nonneg (v : Vec α) : 0 ≤ quadratic v := by
  rw [quadratic_eq_sum]
  induction v with
  | nil => simp
  | cons x xs ih =>
    simp only [List.map_cons, List.sum_cons]
    exact add_nonneg (mul_self_nonneg x) ih

theorem quadratic_pos (v : Vec α) (h : ∃ t ∈ v, t ≠ 0) : 0 < quadratic v := by
  induction v with
  | nil => simp at h
  | cons x xs ih =>
    have hx : quadratic (x :: xs) = x * x + quadratic xs := by
      simp only [quadratic_eq_sum, List.map_cons, List.sum_cons]
    rw [hx]
    obtain ⟨t, ht, ht0⟩ := h
    rcases List.mem_cons.mp ht with rfl | hmem
    · have : 0 < t * t := mul_self_pos.mpr ht0
      linarith [quadratic_nonneg xs]
    · have := ih ⟨t, hmem, ht0⟩
      linarith [mul_self_nonneg x]

/-- The trial point of the steepest-descent line `x0 + d*a`, `d = -(2*x0)`. -/
theorem quadratic_line_point (x0 : Vec α) (a : α) :
    Vec.add x0 (Vec.smul ((x0.map (fun t => 2 * t)).map (fun t => -t)) a) =
      x0.map (fun t => (1 - 2 * a) * t) := by
  induction x0 with
  | nil => simp [Vec.add, Vec.smul]
  | cons x xs ih =>
    simp only [Vec.add, Vec.smul, List.map_cons, List.zipWith_cons_cons, List.map_map] at ih ⊢
    rw [ih]
    congr 1
    ring

theorem quadratic_line_value (x0 : Vec α) (a : α) :
    quadratic (Vec.add x0 (Vec.smul ((x0.map (fun t => 2 * t)).map (fun t => -t)) a)) =
      (1 - 2 * a) * (1 - 2 * a) * quadratic x0 := by
  rw [quadratic_line_point, quadratic_eq_sum, quadratic_eq_sum]
  induction x0 with
  | nil => simp
  | cons x xs ih =>
    simp only [List.map_cons, List.sum_cons, List.map_map] at ih ⊢
    rw [ih]; ring

theorem quadratic_line_slope (x0 : Vec α) (a : α) :
    Vec.dot ((Vec.add x0 (Vec.smul ((x0.map (fun t => 2 * t)).map (fun t => -t)) a)).map
        (fun t => 2 * t)) ((x0.map (fun t => 2 * t)).map (fun t => -t)) =
      -4 * (1 - 2 * a) * quadratic x0 := by
  rw [quadratic_line_point, quadratic_eq_sum]
  induction x0 with
  | nil => simp [Vec.dot]
  | cons x xs ih =>
    simp only [Vec.dot, List.map_cons, List.sum_cons, List.map_map, List.zipWith_cons_cons] at ih ⊢
    rw [ih]; ring

theorem quadratic_start_slope (x0 : Vec α) :
    Vec.dot (x0.map (fun t => 2 * t)) ((x0.map (fun t => 2 * t)).map (fun t => -t)) =
      -4 * quadratic x0 := by
  rw [quadratic_eq_sum]
  induction x0 with
  | nil => simp [Vec.dot]
  | cons x xs ih =>
    simp only [Vec.dot, List.map_cons, List.sum_cons, List.map_map, List.zipWith_cons_cons] at ih ⊢
    rw [ih]; ring

theorem wolfe_zoom_quadratic_second (sqrt : α → α) (hs : IsSqrt sqrt) (x0 : Vec α)
    (hn : 0 < quadratic x0) (sigma : α) (fuel : Nat) :
    wolfe_noc_zoom sqrt x0 ((x0.map (fun t => 2 * t)).map (fun t => -t)) quadratic
      (fun v => v.map (fun t => 2 * t)) (quadratic x0) (-4 * quadratic x0)
      (1 / 10000) sigma (1 / 1000) (fuel + 1)
      { a1 := 1 / 2, a2 := 1, f1 := 0, f2 := quadratic x0, pad1 := 0,
        pad2 := 4 * quadratic x0 } = some (1 / 2, Exit.zoom_stall) := by
  rw [wolfe_noc_zoom]
  have hlt : (1 / 2 : α) < 1 := by norm_num
  simp only [if_pos hlt, interp_quadratic_second sqrt hs _ hn, quadratic_line_value]
  norm_num

theorem wolfe_zoom_quadratic_first (sqrt : α → α) (hs : IsSqrt sqrt) (x0 : Vec α)
    (hn : 0 < quadratic x0) (fuel : Nat) :
    wolfe_noc_zoom sqrt x0 ((x0.map (fun t => 2 * t)).map (fun t => -t)) quadratic
      (fun v => v.map (fun t => 2 * t)) (quadratic x0) (-4 * quadratic x0)
      (1 / 10000) (9 / 10) (1 / 1000) (fuel + 2)
      { a1 := 0, a2 := 1, f1 := quadratic x0, f2 := quadratic x0, pad1 := -4 * quadratic x0,
        pad2 := 4 * quadratic x0 } = some (1 / 2, Exit.zoom_stall) := by
  rw [wolfe_noc_zoom]
  have hlt : (0 : α) < 1 := by norm_num
  simp only [if_pos hlt, interp_quadratic_first sqrt hs _ hn, quadratic_line_value,
    quadratic_line_slope]
  by_cases hstall : |(1 - 2 * (1 / 2 : α)) * (1 - 2 * (1 / 2)) * quadratic x0 - quadratic x0| /
        (1 + |(1 - 2 * (1 / 2 : α)) * (1 - 2 * (1 / 2)) * quadratic x0|) < 1 / 1000 ∨
      |(1 - 2 * (1 / 2 : α)) * (1 - 2 * (1 / 2)) * quadratic x0 - quadratic x0| /
        (1 + |(1 - 2 * (1 / 2 : α)) * (1 - 2 * (1 / 2)) * quadratic x0|) < 1 / 1000
  · rw [if_pos hstall]
  · rw [if_neg hstall]
    have h2 : ¬ ((1 - 2 * (1 / 2 : α)) * (1 - 2 * (1 / 2)) * quadratic x0 >
          quadratic x0 + 1 / 10000 * (1 / 2) * (-4 * quadratic x0) ∨
        (1 - 2 * (1 / 2 : α)) * (1 - 2 * (1 / 2)) * quadratic x0 ≥ quadratic x0) := by
      norm_num
      constructor <;> linarith
    have h3 : ¬ (-4 * quadratic x0 ≥ 9 / 10 * (-4 * quadratic x0)) := by
      norm_num; linarith
    rw [if_neg h2, if_neg h3]
    have := wolfe_zoom_quadratic_second sqrt hs x0 hn (9 / 10) fuel
    convert this using 2
    norm_num

theorem strong_wolfe_zoom_quadratic_second (sqrt : α → α) (hs : IsSqrt sqrt) (x0 : Vec α)
    (hn : 0 < quadratic x0) (sigma : α) (fuel : Nat) :
    strong_wolfe_noc_zoom sqrt x0 ((x0.map (fun t => 2 * t)).map (fun t => -t)) quadratic
      (fun v => v.map (fun t => 2 * t)) (quadratic x0) (-4 * quadratic x0)
      (1 / 10000) sigma (1 / 1000) (fuel + 1)
      { a1 := 1 / 2, a2 := 1, f1 := 0, f2 := quadratic x0, pad1 := 0,
        pad2 := 4 * quadratic x0 } = some (1 / 2, Exit.zoom_stall) := by
  rw [strong_wolfe_noc_zoom]
  have hlt : (1 / 2 : α) < 1 := by norm_num
  simp only [if_pos hlt, interp_quadratic_second sqrt hs _ hn, quadratic_line_value]
  norm_num

theorem strong_wolfe_zoom_quadratic_first (sqrt : α → α) (hs : IsSqrt sqrt) (x0 : Vec α)
    (hn : 0 < quadratic x0) (fuel : Nat) :
    strong_wolfe_noc_zoom sqrt x0 ((x0.map (fun t => 2 * t)).map (fun t => -t)) quadratic
      (fun v => v.map (fun t => 2 * t)) (quadratic x0) (-4 * quadratic x0)
      (1 / 10000) (1 / 10) (1 / 1000) (fuel + 2)
      { a1 := 0, a2 := 1, f1 := quadratic x0, f2 := quadratic x0, pad1 := -4 * quadratic x0,
        pad2 := 4 * quadratic x0 } = some (1 / 2, Exit.zoom_stall) := by
  rw [strong_wolfe_noc_zoom]
  have hlt : (0 : α) < 1 := by norm_num
  simp only [if_pos hlt, interp_quadratic_first sqrt hs _ hn, quadratic_line_value,
    quadratic_line_slope]
  by_cases hstall : |(1 - 2 * (1 / 2 : α)) * (1 - 2 * (1 / 2)) * quadratic x0 - quadratic x0| /
        (1 + |(1 - 2 * (1 / 2 : α)) * (1 - 2 * (1 / 2)) * quadratic x0|) < 1 / 1000 ∨
      |(1 - 2 * (1 / 2 : α)) * (1 - 2 * (1 / 2)) * quadratic x0 - quadratic x0| /
        (1 + |(1 - 2 * (1 / 2 : α)) * (1 - 2 * (1 / 2)) * quadratic x0|) < 1 / 1000
  · rw [if_pos hstall]
  · rw [if_neg hstall]
    have h2 : ¬ ((1 - 2 * (1 / 2 : α)) * (1 - 2 * (1 / 2)) * quadratic x0 >
          quadratic x0 + 1 / 10000 * (1 / 2) * (-4 * quadratic x0) ∨
        (1 - 2 * (1 / 2 : α)) * (1 - 2 * (1 / 2)) * quadratic x0 ≥ quadratic x0) := by
      norm_num
      constructor <;> linarith
    have h3 : ¬ (|-4 * quadratic x0| ≤ -(1 / 10) * (-4 * quadratic x0)) := by
      rw [abs_of_neg (by linarith)]
      intro h; linarith
    have h4 : ¬ (-4 * quadratic x0 * (1 - 0) ≥ 0) := by
      intro h; linarith
    rw [if_neg h2, if_neg h3, if_neg h4]
    have := strong_wolfe_zoom_quadratic_second sqrt hs x0 hn (1 / 10) fuel
    convert this using 2
    norm_num

/-- Claim C8: on `f(x) = ‖x‖²` with `g(x) = 2x`, a non-zero `x0` and `d = -g(x0)`,
`wolfe` and `strong_wolfe` with their default options return the step `1/2`
(three loop iterations suffice and more fuel does not change the result), and
the new point has a strictly smaller norm than `x0`. -/
theorem wolfe_quadratic_decreases_norm (sqrt : α → α) (hs : IsSqrt sqrt) (x0 : Vec α)
    (hx0 : ∃ t ∈ x0, t ≠ 0) (fuel : Nat) (hfuel : 3 ≤ fuel) :
    wolfe sqrt fuel x0 ((x0.map (fun t => 2 * t)).map (fun t => -t)) quadratic
      (fun v => v.map (fun t => 2 * t)) (1 / 10000) 1 (9 / 10) (1 / 1000) 10000000000 10
      = some (1 / 2) ∧
    strong_wolfe sqrt fuel x0 ((x0.map (fun t => 2 * t)).map (fun t => -t)) quadratic
      (fun v => v.map (fun t => 2 * t)) (1 / 10000) 1 (1 / 10) (1 / 1000) 10000000000 10
      = some (1 / 2) ∧
    sqrt (quadratic (Vec.add x0
        (Vec.smul ((x0.map (fun t => 2 * t)).map (fun t => -t)) (1 / 2)))) <
      sqrt (quadratic x0) := by
  have hn := quadratic_pos x0 hx0
  obtain ⟨k, rfl⟩ : ∃ k, fuel = k + 3 := ⟨fuel - 3, by omega⟩
  have e1 : (1 - 2 * 1) * (1 - 2 * 1) * quadratic x0 = quadratic x0 := by ring
  have e2 : -4 * (1 - 2 * 1) * quadratic x0 = 4 * quadratic x0 := by ring
  refine ⟨?_, ?_, ?_⟩
  · simp only [wolfe, wolfe_exit, quadratic_line_value, quadratic_line_slope,
      quadratic_start_slope]
    rw [wolfe_loop]
    have hz := wolfe_zoom_quadratic_first sqrt hs x0 hn k
    split_ifs with h1 h2
    · rw [e1, e2, hz]
      rfl
    · exfalso; apply h1; left; simp only [e1]; linarith
    · exfalso; apply h1; left; simp only [e1]; linarith
  · simp only [strong_wolfe, strong_wolfe_exit, quadratic_line_value, quadratic_line_slope,
      quadratic_start_slope]
    rw [strong_wolfe_loop]
    have hz := strong_wolfe_zoom_quadratic_first sqrt hs x0 hn k
    split_ifs with h1 h2 h3
    · rw [e1, e2, hz]
      rfl
    · exfalso; apply h1; left; simp only [e1]; linarith
    · exfalso; apply h1; left; simp only [e1]; linarith
    · exfalso; apply h1; left; simp only [e1]; linarith
  · rw [quadratic_line_value]
    have h0 : (1 - 2 * (1 / 2 : α)) * (1 - 2 * (1 / 2)) * quadratic x0 = 0 * 0 := by ring
    rw [h0, hs.sqrt_mul_self 0 (le_refl 0)]
    obtain ⟨h1, h2⟩ := hs (quadratic x0) (le_of_lt hn)
    rcases h1.lt_or_eq with h | h
    · exact h
    · rw [← h] at h2; linarith

/-! ### Curvature and sufficient decrease of `wolfe` and `strong_wolfe` -/

theorem rat_sqrt_36 : Rat.sqrt 36 = 6 := by
  rw [show (36 : ℚ) = 6 * 6 by norm_num, Rat.sqrt_eq]; norm_num

/-- Claim C1, amended: a step that `wolfe` returns within its first loop iteration
(fuel 1: the first pass through the bracketing loop accepts `a2`) is
`initial_step`, is returned for every larger fuel as well, and satisfies the
weak curvature condition against the starting slope,
`g(x0+a*d)·d ≥ sigma*(g(x0)·d)`. -/
theorem wolfe_first_accept_curvature (sqrt : α → α) (x0 d : Vec α) (f : Vec α → α)
    (g : Vec α → Vec α) (steepness initial_step sigma xi max_step step_factor : α)
    (a : α) (e : Exit)
    (h : wolfe_exit sqrt 1 x0 d f g steepness initial_step sigma xi max_step step_factor
      = some (a, e)) :
    e = Exit.bracket ∧ a = initial_step ∧
    (∀ fuel : Nat, 1 ≤ fuel →
      wolfe sqrt fuel x0 d f g steepness initial_step sigma xi max_step step_factor = some a) ∧
    Vec.dot (g (Vec.add x0 (Vec.smul d a))) d ≥ sigma * Vec.dot (g x0) d := by
  have hmono : ∀ fuel : Nat, 1 ≤ fuel →
      wolfe sqrt fuel x0 d f g steepness initial_step sigma xi max_step step_factor
        = some a := by
    intro fuel hfuel
    simp only [wolfe, wolfe_exit_mono sqrt x0 d f g steepness initial_step sigma xi max_step
      step_factor 1 fuel hfuel (a, e) h, Option.map_some']
  unfold wolfe_exit at h
  rw [wolfe_loop] at h
  split_ifs at h with h1 h2
  · simp [wolfe_noc_zoom] at h
  · simp only [Option.some.injEq, Prod.mk.injEq] at h
    obtain ⟨rfl, rfl⟩ := h
    exact ⟨rfl, rfl, hmono, h2⟩
  · simp [wolfe_loop] at h

/-- Witness of the amended C1 on `f(x) = x²`, `x0 = [1]`, `d = [-2]`,
`initial_step = 1/2`. -/
theorem wolfe_first_accept_curvature_witness :
    Vec.dot ((Vec.add [(1 : ℚ)] (Vec.smul [-2] (1 / 2))).map (fun t => 2 * t)) [-2] ≥
      9 / 10 * Vec.dot (([1] : Vec ℚ).map (fun t => 2 * t)) [-2] :=
  (wolfe_first_accept_curvature Rat.sqrt [1] [-2] quadratic (fun v => v.map (fun t => 2 * t))
    (1 / 10000) (1 / 2) (9 / 10) (1 / 1000) 10000000000 10 (1 / 2) Exit.bracket
    (by norm_num [wolfe_exit, wolfe_loop, quadratic, Vec.add, Vec.smul, Vec.dot])).2.2.2

/-- Claim C1, counterexample: on the quintic test objective, from `x0 = [0]` along
`d = [1]` with the default options, `wolfe` returns `1/3` through the
insufficient-progress exit of the zoom; the slope there is `-4`, below
`sigma*(g(x0)·d) = -9/5`. -/
theorem wolfe_stall_violates_curvature :
    wolfe_exit Rat.sqrt 2 [0] [1] quintic_f quintic_g (1 / 10000) 1 (9 / 10) (1 / 1000)
      10000000000 10 = some (1 / 3, Exit.zoom_stall) ∧
    wolfe Rat.sqrt 2 [0] [1] quintic_f quintic_g (1 / 10000) 1 (9 / 10) (1 / 1000)
      10000000000 10 = some (1 / 3) ∧
    ¬ (Vec.dot (quintic_g (Vec.add [0] (Vec.smul [1] (1 / 3)))) [1] ≥
      9 / 10 * Vec.dot (quintic_g [0]) [1]) := by
  refine ⟨?_, ?_, ?_⟩
  · simp only [wolfe_exit, wolfe_loop, wolfe_noc_zoom, interp, interp_tmp,
      quintic_f, quintic_g, Vec.add, Vec.smul, Vec.dot]
    norm_num [rat_sqrt_36]
  · simp only [wolfe, wolfe_exit, wolfe_loop, wolfe_noc_zoom, interp, interp_tmp,
      quintic_f, quintic_g, Vec.add, Vec.smul, Vec.dot]
    norm_num [rat_sqrt_36]
  · norm_num [quintic_g, Vec.add, Vec.smul, Vec.dot]

/-- Claim C2, amended: a step that `strong_wolfe` returns within its first loop
iteration (fuel 1: the first pass through the bracketing loop accepts `a2`) is
`initial_step`, is returned for every larger fuel as well, and satisfies the
strong curvature condition against the starting slope,
`|g(x0+a*d)·d| ≤ -sigma*(g(x0)·d)`. -/
theorem strong_wolfe_first_accept_curvature (sqrt : α → α) (x0 d : Vec α) (f : Vec α → α)
    (g : Vec α → Vec α) (steepness initial_step sigma xi max_step step_factor : α)
    (a : α) (e : Exit)
    (h : strong_wolfe_exit sqrt 1 x0 d f g steepness initial_step sigma xi max_step step_factor
      = some (a, e)) :
    e = Exit.bracket ∧ a = initial_step ∧
    (∀ fuel : Nat, 1 ≤ fuel →
      strong_wolfe sqrt fuel x0 d f g steepness initial_step sigma xi max_step step_factor
        = some a) ∧
    |Vec.dot (g (Vec.add x0 (Vec.smul d a))) d| ≤ -sigma * Vec.dot (g x0) d := by
  have hmono : ∀ fuel : Nat, 1 ≤ fuel →
      strong_wolfe sqrt fuel x0 d f g steepness initial_step sigma xi max_step step_factor
        = some a := by
    intro fuel hfuel
    simp only [strong_wolfe, strong_wolfe_exit_mono sqrt x0 d f g steepness initial_step sigma
      xi max_step step_factor 1 fuel hfuel (a, e) h, Option.map_some']
  unfold strong_wolfe_exit at h
  rw [strong_wolfe_loop] at h
  split_ifs at h with h1 h2 h3
  · simp [strong_wolfe_noc_zoom] at h
  · simp only [Option.some.injEq, Prod.mk.injEq] at h
    obtain ⟨rfl, rfl⟩ := h
    exact ⟨rfl, rfl, hmono, h2⟩
  · simp [strong_wolfe_noc_zoom] at h
  · simp [strong_wolfe_loop] at h

/-- Witness of the amended C2 on `f(x) = x²`, `x0 = [1]`, `d = [-2]`,
`initial_step = 1/2`. -/
theorem strong_wolfe_first_accept_curvature_witness :
    |Vec.dot ((Vec.add [(1 : ℚ)] (Vec.smul [-2] (1 / 2))).map (fun t => 2 * t)) [-2]| ≤
      -(1 / 10) * Vec.dot (([1] : Vec ℚ).map (fun t => 2 * t)) [-2] :=
  (strong_wolfe_first_accept_curvature Rat.sqrt [1] [-2] quadratic
    (fun v => v.map (fun t => 2 * t))
    (1 / 10000) (1 / 2) (1 / 10) (1 / 1000) 10000000000 10 (1 / 2) Exit.bracket
    (by norm_num [strong_wolfe_exit, strong_wolfe_loop, quadratic, Vec.add, Vec.smul,
      Vec.dot])).2.2.2

/-- Claim C2, counterexample: on the quartic test objective, from `x0 = [0]` along
`d = [1]` with the default options, `strong_wolfe` returns `1/3` through the
insufficient-progress exit of the zoom; the slope there is `4/3`, whose
absolute value exceeds `-sigma*(g(x0)·d) = 1/5`. -/
theorem strong_wolfe_stall_violates_curvature :
    strong_wolfe_exit Rat.sqrt 2 [0] [1] quartic_f quartic_g (1 / 10000) 1 (1 / 10) (1 / 1000)
      10000000000 10 = some (1 / 3, Exit.zoom_stall) ∧
    strong_wolfe Rat.sqrt 2 [0] [1] quartic_f quartic_g (1 / 10000) 1 (1 / 10) (1 / 1000)
      10000000000 10 = some (1 / 3) ∧
    ¬ (|Vec.dot (quartic_g (Vec.add [0] (Vec.smul [1] (1 / 3)))) [1]| ≤
      -(1 / 10) * Vec.dot (quartic_g [0]) [1]) := by
  refine ⟨?_, ?_, ?_⟩
  · simp only [strong_wolfe_exit, strong_wolfe_loop, strong_wolfe_noc_zoom, interp,
      interp_tmp, quartic_f, quartic_g, Vec.add, Vec.smul, Vec.dot]
    norm_num [rat_sqrt_36]
  · simp only [strong_wolfe, strong_wolfe_exit, strong_wolfe_loop, strong_wolfe_noc_zoom,
      interp, interp_tmp, quartic_f, quartic_g, Vec.add, Vec.smul, Vec.dot]
    norm_num [rat_sqrt_36]
  · norm_num [quartic_g, Vec.add, Vec.smul, Vec.dot, abs_of_pos]

/-- Claim C3, counterexample: on the quartic test objective, from `x0 = [0]` along
`d = [1]` with the default options, `wolfe` and `strong_wolfe` both return
`1/3` through the insufficient-progress exit of the zoom, where
`f(x0+a*d) = 0` exceeds `f(x0) + steepness*a*(g(x0)·d) = -1/15000`. -/
theorem wolfe_stall_violates_sufficient_decrease :
    wolfe Rat.sqrt 2 [0] [1] quartic_f quartic_g (1 / 10000) 1 (9 / 10) (1 / 1000)
      10000000000 10 = some (1 / 3) ∧
    strong_wolfe Rat.sqrt 2 [0] [1] quartic_f quartic_g (1 / 10000) 1 (1 / 10) (1 / 1000)
      10000000000 10 = some (1 / 3) ∧
    ¬ (quartic_f (Vec.add [0] (Vec.smul [1] (1 / 3))) ≤
      quartic_f [0] + 1 / 10000 * (1 / 3) * Vec.dot (quartic_g [0]) [1]) := by
  refine ⟨?_, ?_, ?_⟩
  · simp only [wolfe, wolfe_exit, wolfe_loop, wolfe_noc_zoom, interp,
      interp_tmp, quartic_f, quartic_g, Vec.add, Vec.smul, Vec.dot]
    norm_num [rat_sqrt_36]
  · simp only [strong_wolfe, strong_wolfe_exit, strong_wolfe_loop, strong_wolfe_noc_zoom,
      interp, interp_tmp, quartic_f, quartic_g, Vec.add, Vec.smul, Vec.dot]
    norm_num [rat_sqrt_36]
  · norm_num [quartic_f, quartic_g, Vec.add, Vec.smul, Vec.dot]

/-- Witness of the amended C3 on `f(x) = x²`, `x0 = [1]`, `d = [-2]`,
`initial_step = 1/2`, where `wolfe` accepts `a2` in the bracketing loop. -/
theorem wolfe_accepted_sufficient_decrease_witness :
    quadratic (Vec.add [(1 : ℚ)] (Vec.smul [-2] (1 / 2))) ≤
      quadratic [1] + 1 / 10000 * (1 / 2) * Vec.dot (([1] : Vec ℚ).map (fun t => 2 * t)) [-2] :=
  wolfe_accepted_sufficient_decrease Rat.sqrt [1] [-2] quadratic
    (fun v => v.map (fun t => 2 * t))
    (1 / 10000) (1 / 2) (9 / 10) (1 / 1000) 10000000000 10 1 (1 / 2) Exit.bracket
    (by decide)
    (Or.inl (by norm_num [wolfe_exit, wolfe_loop, quadratic, Vec.add, Vec.smul, Vec.dot]))

/-- Witness of C8 over the reals with `Real.sqrt`, at `x0 = [3, 4]`. -/
theorem wolfe_quadratic_decreases_norm_witness :
    wolfe Real.sqrt 3 [3, 4] (([3, 4] : Vec ℝ).map (fun t => 2 * t) |>.map (fun t => -t))
      quadratic (fun v => v.map (fun t => 2 * t)) (1 / 10000) 1 (9 / 10) (1 / 1000)
      10000000000 10 = some (1 / 2) ∧
    strong_wolfe Real.sqrt 3 [3, 4]
      (([3, 4] : Vec ℝ).map (fun t => 2 * t) |>.map (fun t => -t))
      quadratic (fun v => v.map (fun t => 2 * t)) (1 / 10000) 1 (1 / 10) (1 / 1000)
      10000000000 10 = some (1 / 2) ∧
    Real.sqrt (quadratic (Vec.add [3, 4]
        (Vec.smul (([3, 4] : Vec ℝ).map (fun t => 2 * t) |>.map (fun t => -t)) (1 / 2)))) <
      Real.sqrt (quadratic ([3, 4] : Vec ℝ)) :=
  wolfe_quadratic_decreases_norm Real.sqrt
    (fun y hy => ⟨Real.sqrt_nonneg y, Real.mul_self_sqrt hy⟩) [3, 4]
    ⟨3, by simp, by norm_num⟩ 3 (le_refl 3)

/-! ### `interp` and the interpolating cubic -/

/-- Over the reals `cubic_deriv` and `cubic_deriv2` are the first and second
derivative of `cubic_eval`. -/
theorem cubic_hasDerivAt (c3 c2 c1 c0 t : ℝ) :
    HasDerivAt (cubic_eval c3 c2 c1 c0) (cubic_deriv c3 c2 c1 t) t ∧
    HasDerivAt (cubic_deriv c3 c2 c1) (cubic_deriv2 c3 c2 t) t := by
  constructor
  · have h := ((((hasDerivAt_pow 3 t).const_mul c3).add ((hasDerivAt_pow 2 t).const_mul c2)).add
      ((hasDerivAt_id t).const_mul c1)).add_const c0
    convert h using 1
    simp only [cubic_deriv]; norm_num; ring
  · have h := ((((hasDerivAt_pow 2 t).const_mul (3 * c3)).add
      ((hasDerivAt_id t).const_mul (2 * c2)))).add_const c1
    convert h using 1
    simp only [cubic_deriv2]; norm_num; ring

/-- The algebra behind `interp`: the candidate `c` is a stationary point of every
cubic through the four data, and the second derivative there is
`2*sqrt D/(t2 - t1)`. -/
theorem interp_cubic_algebra (sqrt : α → α) (t1 t2 val1 val2 der1 der2 : α) (h12 : t1 < t2)
    (d1 D c : α)
    (hd1 : d1 = der1 + der2 - 3 * (val1 - val2) / (t1 - t2))
    (hDdef : D = d1 * d1 - der1 * der2)
    (hcdef : c = t2 - (t2 - t1) * (der2 + sqrt D - d1) / (der2 - der1 + 2 * sqrt D))
    (hs : sqrt D * sqrt D = D)
    (hden : der2 - der1 + 2 * sqrt D ≠ 0)
    (c3 c2 c1 c0 : α)
    (hp1 : cubic_eval c3 c2 c1 c0 t1 = val1) (hp2 : cubic_eval c3 c2 c1 c0 t2 = val2)
    (hq1 : cubic_deriv c3 c2 c1 t1 = der1) (hq2 : cubic_deriv c3 c2 c1 t2 = der2) :
    cubic_deriv c3 c2 c1 c = 0 ∧ cubic_deriv2 c3 c2 c * (t2 - t1) = 2 * sqrt D := by
  have ht : t1 - t2 ≠ 0 := sub_ne_zero.mpr (ne_of_lt h12)
  have hd1' : d1 = -(3 * c3 * t1 * t2 + c2 * (t1 + t2) + c1) := by
    rw [hd1, ← hp1, ← hp2, ← hq1, ← hq2]
    simp only [cubic_eval, cubic_deriv]
    field_simp
    ring
  have hzQ : (der2 + sqrt D - d1) / (der2 - der1 + 2 * sqrt D) * (der2 - der1 + 2 * sqrt D)
      = der2 + sqrt D - d1 := div_mul_cancel₀ _ hden
  have hc' : c = t2 - (t2 - t1) * ((der2 + sqrt D - d1) / (der2 - der1 + 2 * sqrt D)) := by
    rw [hcdef, mul_div_assoc]
  have hs' : sqrt D * sqrt D = d1 * d1 - der1 * der2 := hs.trans hDdef
  clear hs hcdef hd1 hDdef
  generalize sqrt D = s at hs' hzQ hc' hden ⊢
  generalize (der2 + s - d1) / (der2 - der1 + 2 * s) = z at hzQ hc'
  have hQ2 : (der2 - der1 + 2 * s) ^ 2 ≠ 0 := pow_ne_zero 2 hden
  subst hd1'
  simp only [cubic_deriv] at hq1 hq2
  subst hq1 hq2
  have e : cubic_deriv c3 c2 c1 c *
      (3 * c3 * t2 ^ 2 + 2 * c2 * t2 + c1 - (3 * c3 * t1 ^ 2 + 2 * c2 * t1 + c1) + 2 * s) ^ 2
        = 0 := by
    rw [hc']
    simp only [cubic_deriv]
    linear_combination
      (3 * c3 * (t2 - t1) ^ 2 *
          (z * (3 * c3 * t2 ^ 2 + 2 * c2 * t2 + c1 - (3 * c3 * t1 ^ 2 + 2 * c2 * t1 + c1)
            + 2 * s)
            + (3 * c3 * t2 ^ 2 + 2 * c2 * t2 + c1 + s
              - -(3 * c3 * t1 * t2 + c2 * (t1 + t2) + c1)))
        - (t2 - t1) * (6 * c3 * t2 + 2 * c2) *
          (3 * c3 * t2 ^ 2 + 2 * c2 * t2 + c1 - (3 * c3 * t1 ^ 2 + 2 * c2 * t1 + c1)
            + 2 * s)) * hzQ
      + (3 * c3 * (t2 - t1) ^ 2 - 2 * ((t2 - t1) * (6 * c3 * t2 + 2 * c2))
          + 4 * (3 * c3 * t2 ^ 2 + 2 * c2 * t2 + c1)) * hs'
  have e2 : (cubic_deriv2 c3 c2 c * (t2 - t1) - 2 * s) *
      (3 * c3 * t2 ^ 2 + 2 * c2 * t2 + c1 - (3 * c3 * t1 ^ 2 + 2 * c2 * t1 + c1) + 2 * s)
        = 0 := by
    rw [hc']
    simp only [cubic_deriv2]
    linear_combination (-6 * c3 * (t2 - t1) ^ 2) * hzQ + (-4) * hs'
  exact ⟨(mul_eq_zero.mp e).resolve_right hQ2,
    sub_eq_zero.mp ((mul_eq_zero.mp e2).resolve_right hden)⟩

/-- Claim C10: when the radicand `D` is non-negative, `sqrt D` is its root, the
divisor `der2 - der1 + 2*sqrt D` is non-zero and the candidate `c` is
non-negative and in `[t1, t2]`, `interp` returns `c`, and `c` is a local
minimiser of every cubic `p` with `p(t1)=val1`, `p(t2)=val2`, `p'(t1)=der1`,
`p'(t2)=der2`: `p'(c) = 0` and `p''(c) ≥ 0`. -/
theorem interp_cubic_minimiser (sqrt : α → α) (t1 t2 val1 val2 der1 der2 : α) (h12 : t1 < t2)
    (d1 D c : α)
    (hd1 : d1 = der1 + der2 - 3 * (val1 - val2) / (t1 - t2))
    (hDdef : D = d1 * d1 - der1 * der2)
    (hcdef : c = t2 - (t2 - t1) * (der2 + sqrt D - d1) / (der2 - der1 + 2 * sqrt D))
    (hD : 0 ≤ D) (hs0 : 0 ≤ sqrt D) (hs : sqrt D * sqrt D = D)
    (hden : der2 - der1 + 2 * sqrt D ≠ 0)
    (hc0 : 0 ≤ c) (hc1 : t1 ≤ c) (hc2 : c ≤ t2)
    (c3 c2 c1 c0 : α)
    (hp1 : cubic_eval c3 c2 c1 c0 t1 = val1) (hp2 : cubic_eval c3 c2 c1 c0 t2 = val2)
    (hq1 : cubic_deriv c3 c2 c1 t1 = der1) (hq2 : cubic_deriv c3 c2 c1 t2 = der2) :
    interp sqrt t1 t2 val1 val2 der1 der2 = c ∧
    cubic_deriv c3 c2 c1 c = 0 ∧ cubic_deriv2 c3 c2 c ≥ 0 := by
  have ht : t1 - t2 ≠ 0 := sub_ne_zero.mpr (ne_of_lt h12)
  have hh : 0 < t2 - t1 := sub_pos.mpr h12
  refine ⟨?_, ?_, ?_⟩
  · subst hDdef hd1
    exact interp_eq_of_defined sqrt t1 t2 val1 val2 der1 der2 ht hD hden c hcdef hc0 hc1 hc2
  · exact (interp_cubic_algebra sqrt t1 t2 val1 val2 der1 der2 h12 d1 D c hd1 hDdef hcdef hs
      hden c3 c2 c1 c0 hp1 hp2 hq1 hq2).1
  · have h2 := (interp_cubic_algebra sqrt t1 t2 val1 val2 der1 der2 h12 d1 D c hd1 hDdef hcdef
      hs hden c3 c2 c1 c0 hp1 hp2 hq1 hq2).2
    have h3 : cubic_deriv2 c3 c2 c = 2 * sqrt D / (t2 - t1) := by
      rw [eq_div_iff (ne_of_gt hh)]; exact h2
    rw [h3]
    exact div_nonneg (mul_nonneg (by norm_num) hs0) (le_of_lt hh)

/-- Witness of C10 over `ℚ` with `Rat.sqrt`: for `t1 = 0`, `t2 = 1`, values `0, 4`
and slopes `-2, 16` the radicand is `36`, the candidate is `1/3`, and the
cubic through the data is `6t³ - 2t`. -/
theorem interp_cubic_minimiser_witness :
    interp Rat.sqrt 0 1 0 4 (-2) 16 = 1 / 3 ∧
    cubic_deriv (6 : ℚ) 0 (-2) (1 / 3) = 0 ∧ cubic_deriv2 (6 : ℚ) 0 (1 / 3) ≥ 0 :=
  interp_cubic_minimiser Rat.sqrt 0 1 0 4 (-2) 16 (by norm_num) 2 36 (1 / 3)
    (by norm_num) (by norm_num) (by rw [rat_sqrt_36]; norm_num) (by norm_num)
    (by rw [rat_sqrt_36]; norm_num) (by rw [rat_sqrt_36]; norm_num)
    (by rw [rat_sqrt_36]; norm_num) (by norm_num) (by norm_num) (by norm_num)
    6 0 (-2) 0 (by norm_num [cubic_eval]) (by norm_num [cubic_eval])
    (by norm_num [cubic_deriv]) (by norm_num [cubic_deriv])

/-! ### Later passes of the bracketing loop -/

/-- Acceptance of `a2` in a later pass of the bracketing loop of `wolfe` compares
the slope with `sigma*pad1`, the slope at the previous trial step: on
`cubic_a_f` the step `10` is accepted in the second pass with slope `-675`,
below `sigma*(g(x0)·d) = -121.5`. -/
theorem wolfe_later_bracket_violates_curvature :
    wolfe_exit Rat.sqrt 2 [0] [1] cubic_a_f cubic_a_g (1 / 10000) 1 (9 / 10) (1 / 1000)
      10000000000 10 = some (10, Exit.bracket) ∧
    ¬ (Vec.dot (cubic_a_g (Vec.add [0] (Vec.smul [1] 10))) [1] ≥
      9 / 10 * Vec.dot (cubic_a_g [0]) [1]) := by
  constructor
  · simp only [wolfe_exit, wolfe_loop, cubic_a_f, cubic_a_g, Vec.add, Vec.smul, Vec.dot]
    norm_num
  · norm_num [cubic_a_g, Vec.add, Vec.smul, Vec.dot]

/-- Acceptance of `a2` in a later pass of the bracketing loop of `strong_wolfe`
compares the slope with `-sigma*pad1`: on `cubic_b_f` the step `10` is
accepted in the second pass with slope `-540`, whose absolute value exceeds
`-sigma*(g(x0)·d) = 108`. -/
theorem strong_wolfe_later_bracket_violates_curvature :
    strong_wolfe_exit Rat.sqrt 2 [0] [1] cubic_b_f cubic_b_g (1 / 10000) 1 (1 / 10) (1 / 1000)
      10000000000 10 = some (10, Exit.bracket) ∧
    ¬ (|Vec.dot (cubic_b_g (Vec.add [0] (Vec.smul [1] 10))) [1]| ≤
      -(1 / 10) * Vec.dot (cubic_b_g [0]) [1]) := by
  constructor
  · simp only [strong_wolfe_exit, strong_wolfe_loop, cubic_b_f, cubic_b_g, Vec.add, Vec.smul,
      Vec.dot]
    norm_num [abs_of_neg, abs_of_pos]
  · norm_num [cubic_b_g, Vec.add, Vec.smul, Vec.dot, abs_of_neg]

/-! ### `interp` with a negative radicand -/

/-- Claim C15: for `t1 < t2` and a negative radicand `d1² - der1*der2`, with
`d1 = der1+der2-3(val1-val2)/(t1-t2)`, `interp` returns exactly `t1`, whatever
`sqrt` computes there. -/
theorem interp_negative_radicand (sqrt : α → α) (t1 t2 val1 val2 der1 der2 : α)
    (h12 : t1 < t2)
    (hD : (der1 + der2 - 3 * (val1 - val2) / (t1 - t2)) *
        (der1 + der2 - 3 * (val1 - val2) / (t1 - t2)) - der1 * der2 < 0) :
    interp sqrt t1 t2 val1 val2 der1 der2 = t1 := by
  have ht : t1 - t2 ≠ 0 := sub_ne_zero.mpr (ne_of_lt h12)
  have htmp : interp_tmp sqrt t1 t2 val1 val2 der1 der2 = none := by
    simp only [interp_tmp, if_neg ht, if_pos hD]
  simp only [interp, htmp]
  rw [if_pos (Or.inl (by linarith))]

/-- Witness of C15 at `t1 = 0`, `t2 = 1`, values `0, 2`, slopes `1, 5`, where
`d1 = 0` and the radicand is `-5`. -/
theorem interp_negative_radicand_witness :
    interp Rat.sqrt 0 1 0 2 1 5 = 0 :=
  interp_negative_radicand Rat.sqrt 0 1 0 2 1 5 (by norm_num) (by norm_num)

/-! ### Bracket invariant of `goldstein` -/

/-- The bracket invariant is carried from any state through the rest of the
loop. -/
theorem goldstein_loop_bracket (x0 d : Vec α) (f : Vec α → α) (f0 pad steepness gamma : α)
    (hg : 1 < gamma) (fuel : Nat) : ∀ (s r : GoldsteinState α),
    GoldsteinBracketInv s →
    goldstein_loop x0 d f f0 pad steepness gamma fuel s = some r →
    GoldsteinBracketInv r := by
  induction fuel with
  | zero =>
    intro s r hs h
    simp only [goldstein_loop] at h
    split_ifs at h
    cases h
    exact hs
  | succ n ih =>
    intro s r hs h
    obtain ⟨h0, h1, h2⟩ := hs
    rw [goldstein_loop] at h
    by_cases hlt : s.steps < 52
    · rw [if_pos hlt] at h
      by_cases hup : s.ff > f0 + steepness * s.a * pad
      · rw [if_pos hup] at h
        refine ih _ _ ?_ h
        refine ⟨h0, ?_, fun _ => ?_⟩
        · show s.a1 < (s.a1 + s.a) / 2
          linarith
        · show (s.a1 + s.a) / 2 < s.a
          linarith
      · rw [if_neg hup] at h
        by_cases hlo : s.ff < f0 + (1 - steepness) * s.a * pad
        · rw [if_pos hlo] at h
          have hapos : 0 < s.a := lt_of_le_of_lt h0 h1
          refine ih _ _ ?_ h
          refine ⟨le_of_lt hapos, ?_, fun hinf => ?_⟩
          · show s.a < (if s.a2inf = false then (s.a + s.a2) / 2 else s.a * gamma)
            split_ifs with hinf
            · have := h2 hinf; linarith
            · nlinarith
          · show (if s.a2inf = false then (s.a + s.a2) / 2 else s.a * gamma) < s.a2
            have hinf' : s.a2inf = false := hinf
            rw [if_pos hinf']
            have := h2 hinf'; linarith
        · rw [if_neg hlo] at h
          cases h
          exact ⟨h0, h1, h2⟩
    · rw [if_neg hlt] at h
      cases h
      exact ⟨h0, h1, h2⟩

/-- Claim C20: for `initial_step > 0` and `gamma > 1` the state in which the loop of
`goldstein` stops, after any number of passes and also at the cap, satisfies
the bracket invariant `0 ≤ a1 < a`, with `a < a2` once `a2inf` is false; the
returned step is strictly positive. -/
theorem goldstein_bracket_invariant (fuel : Nat) (x0 d : Vec α) (f : Vec α → α)
    (g : Vec α → Vec α) (steepness initial_step gamma : α)
    (hi : 0 < initial_step) (hg : 1 < gamma) (r : GoldsteinState α)
    (h : goldstein_run fuel x0 d f g steepness initial_step gamma = some r) :
    0 ≤ r.a1 ∧ r.a1 < r.a ∧ (r.a2inf = false → r.a < r.a2) ∧
    goldstein fuel x0 d f g steepness initial_step gamma = some r.a ∧ 0 < r.a := by
  have hinv := goldstein_loop_bracket x0 d f (f x0) (Vec.dot (g x0) d) steepness gamma hg fuel
    _ r ⟨le_refl (0 : α), hi, fun hc => by simp at hc⟩ h
  exact ⟨hinv.1, hinv.2.1, hinv.2.2, by simp only [goldstein, h, Option.map_some'],
    lt_of_le_of_lt hinv.1 hinv.2.1⟩

/-- Witness of C20 on `f(x) = x²`, `x0 = [1]`, `d = [-2]`: the loop stops at
`a1 = 0`, `a = 1/2`, `a2 = 1`. -/
theorem goldstein_bracket_invariant_witness :
    (0 : ℚ) ≤ 0 ∧ (0 : ℚ) < 1 / 2 ∧ (false = false → (1 / 2 : ℚ) < 1) ∧
    goldstein 2 [1] [-2] quadratic (fun v => v.map (fun x => 2 * x)) (1 / 10000 : ℚ) 1 (11 / 10)
      = some (1 / 2) ∧ (0 : ℚ) < 1 / 2 :=
  goldstein_bracket_invariant 2 [1] [-2] quadratic (fun v => v.map (fun x => 2 * x))
    (1 / 10000 : ℚ) 1 (11 / 10) (by norm_num) (by norm_num)
    { a1 := 0, a2 := 1, a := 1 / 2, a2inf := false, ff := 0, steps := 2, evals := [1, 1 / 2] }
    (by norm_num [goldstein_run, goldstein_loop, quadratic, Vec.add, Vec.smul, Vec.dot])

/-! ### The dispatcher `line_search` -/

/-- The merged option: the override when the key is present, the default
otherwise. -/
theorem ParamMap.get_rest (p params : ParamMap α) (key : String) :
    (p.rest params).get key = (params key).getD (p.get key) := by
  unfold ParamMap.rest ParamMap.get
  cases h : params key <;> simp [h]

/-- Reading a key just assigned. -/
theorem ParamMap.get_set_self (p : ParamMap α) (key : String) (value : α) :
    (p.set key value).get key = value := by
  simp [ParamMap.set, ParamMap.get]

/-- Reading a key other than the one just assigned. -/
theorem ParamMap.get_set_of_ne (p : ParamMap α) (key key' : String) (value : α)
    (h : key' ≠ key) : (p.set key value).get key' = p.get key' := by
  simp [ParamMap.set, ParamMap.get, h]

/-- Claim C11: for each of the six registered names `line_search` returns what the
named algorithm returns with every option taken from the overrides map when
the key is present there and from the built-in default otherwise; keys the
method does not read do not enter the result.  The last line is the spec's
example `line_search("wolfe", ..., {"sigma": 0.5})`. -/
theorem line_search_dispatch (sqrt : α → α) (fuel : Nat) (x0 d : Vec α) (f : Vec α → α)
    (g : Vec α → Vec α) (params : ParamMap α) :
    line_search sqrt fuel "armijo" x0 d f g params =
      Except.ok (armijo sqrt fuel x0 d f g ((params "steepness").getD (1 / 10000))
        ((params "initial_step").getD 1)) ∧
    line_search sqrt fuel "wolfe" x0 d f g params =
      Except.ok (wolfe sqrt fuel x0 d f g ((params "steepness").getD (1 / 10000))
        ((params "initial_step").getD 1) ((params "sigma").getD (9 / 10))
        ((params "xi").getD (1 / 1000)) ((params "max_step").getD 10000000000)
        ((params "step_factor").getD 10)) ∧
    line_search sqrt fuel "strong_wolfe" x0 d f g params =
      Except.ok (strong_wolfe sqrt fuel x0 d f g ((params "steepness").getD (1 / 10000))
        ((params "initial_step").getD 1) ((params "sigma").getD (1 / 10))
        ((params "xi").getD (1 / 1000)) ((params "max_step").getD 10000000000)
        ((params "step_factor").getD 10)) ∧
    line_search sqrt fuel "goldstein" x0 d f g params =
      Except.ok (goldstein fuel x0 d f g ((params "steepness").getD (1 / 10000))
        ((params "initial_step").getD 1) ((params "gamma").getD (11 / 10))) ∧
    line_search sqrt fuel "fixed_line_search" x0 d f g params =
      Except.ok (some (fixed_line_search ((params "initial_step").getD 1))) ∧
    line_search sqrt fuel "binary" x0 d f g params =
      Except.ok (binary fuel x0 d f ((params "initial_step").getD 1)) ∧
    line_search sqrt fuel "wolfe" x0 d f g (ParamMap.empty.set "sigma" (1 / 2)) =
      Except.ok (wolfe sqrt fuel x0 d f g (1 / 10000) 1 (1 / 2) (1 / 1000) 10000000000 10) := by
  refine ⟨?_, ?_, ?_, ?_, ?_, ?_, ?_⟩
  · simp [line_search, ParamMap.get_rest, ParamMap.get_set_self, ParamMap.get_set_of_ne]
  · simp [line_search, ParamMap.get_rest, ParamMap.get_set_self, ParamMap.get_set_of_ne]
  · simp [line_search, ParamMap.get_rest, ParamMap.get_set_self, ParamMap.get_set_of_ne]
  · simp [line_search, ParamMap.get_rest, ParamMap.get_set_self, ParamMap.get_set_of_ne]
  · simp [line_search, ParamMap.get_rest, ParamMap.get_set_self, ParamMap.get_set_of_ne]
  · simp [line_search, ParamMap.get_rest, ParamMap.get_set_self, ParamMap.get_set_of_ne]
  · simp [line_search, ParamMap.get_rest, ParamMap.get_set_self, ParamMap.get_set_of_ne,
      ParamMap.set, ParamMap.empty]

/-- Claim C12: for a method name outside the registry `line_search` fails with the
unknown-method error, for every `x0`, `d`, `f`, `g` and overrides map (the
result does not depend on the oracles); for each of the six registered names
it returns normally. -/
theorem line_search_unknown_method (sqrt : α → α) (fuel : Nat) (method_name : String)
    (x0 d : Vec α) (f : Vec α → α) (g : Vec α → Vec α) (params : ParamMap α) :
    (method_name ∉ ["armijo", "wolfe", "strong_wolfe", "goldstein", "fixed_line_search",
        "binary"] →
      line_search sqrt fuel method_name x0 d f g params = Except.error "unknown method name") ∧
    (method_name ∈ ["armijo", "wolfe", "strong_wolfe", "goldstein", "fixed_line_search",
        "binary"] →
      ∃ r, line_search sqrt fuel method_name x0 d f g params = Except.ok r) := by
  constructor
  · intro h
    simp only [List.mem_cons, List.mem_singleton, List.not_mem_nil, or_false, not_or] at h
    obtain ⟨h1, h2, h3, h4, h5, h6⟩ := h
    simp only [line_search, if_neg h1, if_neg h2, if_neg h3, if_neg h4, if_neg h5, if_neg h6]
  · intro h
    simp only [List.mem_cons, List.mem_singleton, List.not_mem_nil, or_false] at h
    rcases h with rfl | rfl | rfl | rfl | rfl | rfl
    · simp [line_search]
    · simp [line_search]
    · simp [line_search]
    · simp [line_search]
    · simp [line_search]
    · simp [line_search]

/-- Witness of C12 at the name `"not_a_method"`. -/
theorem line_search_unknown_method_witness :
    line_search Rat.sqrt 0 "not_a_method" [1] [1] quadratic (fun v => v) ParamMap.empty =
      Except.error "unknown method name" :=
  (line_search_unknown_method Rat.sqrt 0 "not_a_method" [1] [1] quadratic (fun v => v)
    ParamMap.empty).1 (by decide)

/-- Claim C13: `fixed_line_search s` is `s`, and
`line_search("fixed_line_search", ...)` returns the override of `initial_step`
when that key is present and `1` otherwise, whatever `x0`, `d`, `f` and `g`
are. -/
theorem fixed_line_search_identity (sqrt : α → α) (fuel : Nat) (x0 d : Vec α)
    (f : Vec α → α) (g : Vec α → Vec α) (params : ParamMap α) (s : α) :
    fixed_line_search s = s ∧
    line_search sqrt fuel "fixed_line_search" x0 d f g params =
      Except.ok (some (match params "initial_step" with
        | some value => value
        | none => 1)) := by
  refine ⟨rfl, ?_⟩
  simp only [line_search, fixed_line_search, ParamMap.get_rest, ParamMap.get_set_self]
  cases params "initial_step" <;> simp

/-! ### Range of the steps of `wolfe` and `strong_wolfe` -/

/-- The value of `interp` lies between its first two arguments when they are
ordered, also when they coincide. -/
theorem interp_between (sqrt : α → α) (t1 t2 val1 val2 der1 der2 : α) (h : t1 ≤ t2) :
    t1 ≤ interp sqrt t1 t2 val1 val2 der1 der2 ∧
      interp sqrt t1 t2 val1 val2 der1 der2 ≤ t2 := by
  unfold interp
  simp only
  split_ifs with hc
  · exact ⟨le_refl _, h⟩
  · push_neg at hc
    exact hc

/-- The trial point of the zoom phase lies between the bracket ends. -/
theorem zoom_trial_between (sqrt : α → α) (b : Bracket α) (M : α)
    (h1 : 0 ≤ b.a1 ∧ b.a1 ≤ M) (h2 : 0 ≤ b.a2 ∧ b.a2 ≤ M) :
    0 ≤ (if b.a1 < b.a2 then interp sqrt b.a1 b.a2 b.f1 b.f2 b.pad1 b.pad2
      else interp sqrt b.a2 b.a1 b.f2 b.f1 b.pad2 b.pad1) ∧
    (if b.a1 < b.a2 then interp sqrt b.a1 b.a2 b.f1 b.f2 b.pad1 b.pad2
      else interp sqrt b.a2 b.a1 b.f2 b.f1 b.pad2 b.pad1) ≤ M := by
  split_ifs with hlt
  · have := interp_between sqrt b.a1 b.a2 b.f1 b.f2 b.pad1 b.pad2 (le_of_lt hlt)
    exact ⟨le_trans h1.1 this.1, le_trans this.2 h2.2⟩
  · have := interp_between sqrt b.a2 b.a1 b.f2 b.f1 b.pad2 b.pad1 (not_lt.mp hlt)
    exact ⟨le_trans h2.1 this.1, le_trans this.2 h1.2⟩

/-- Steps returned by the zoom of `wolfe` stay in the range of the bracket. -/
theorem wolfe_noc_zoom_range (sqrt : α → α) (x0 d : Vec α) (f : Vec α → α) (g : Vec α → Vec α)
    (f0 pad0 steepness sigma xi M : α) (fuel : Nat) : ∀ (b : Bracket α) (a : α) (e : Exit),
    (0 ≤ b.a1 ∧ b.a1 ≤ M) → (0 ≤ b.a2 ∧ b.a2 ≤ M) →
    wolfe_noc_zoom sqrt x0 d f g f0 pad0 steepness sigma xi fuel b = some (a, e) →
    0 ≤ a ∧ a ≤ M := by
  induction fuel with
  | zero => intro b a e _ _ h; simp [wolfe_noc_zoom] at h
  | succ n ih =>
    intro b a e h1 h2 h
    have ht := zoom_trial_between sqrt b M h1 h2
    rw [wolfe_noc_zoom] at h
    generalize (if b.a1 < b.a2 then interp sqrt b.a1 b.a2 b.f1 b.f2 b.pad1 b.pad2
      else interp sqrt b.a2 b.a1 b.f2 b.f1 b.pad2 b.pad1) = t at h ht
    split_ifs at h with c1 c2 c3
    · simp only [Option.some.injEq, Prod.mk.injEq] at h
      obtain ⟨rfl, -⟩ := h
      exact ht
    · exact ih _ _ _ (by exact h1) (by exact ht) h
    · simp only [Option.some.injEq, Prod.mk.injEq] at h
      obtain ⟨rfl, -⟩ := h
      exact ht
    · exact ih _ _ _ (by exact ht) (by exact h2) h

/-- Steps returned by the zoom of `strong_wolfe` stay in the range of the
bracket. -/
theorem strong_wolfe_noc_zoom_range (sqrt : α → α) (x0 d : Vec α) (f : Vec α → α)
    (g : Vec α → Vec α) (f0 pad0 steepness sigma xi M : α) (fuel : Nat) :
    ∀ (b : Bracket α) (a : α) (e : Exit),
    (0 ≤ b.a1 ∧ b.a1 ≤ M) → (0 ≤ b.a2 ∧ b.a2 ≤ M) →
    strong_wolfe_noc_zoom sqrt x0 d f g f0 pad0 steepness sigma xi fuel b = some (a, e) →
    0 ≤ a ∧ a ≤ M := by
  induction fuel with
  | zero => intro b a e _ _ h; simp [strong_wolfe_noc_zoom] at h
  | succ n ih =>
    intro b a e h1 h2 h
    have ht := zoom_trial_between sqrt b M h1 h2
    rw [strong_wolfe_noc_zoom] at h
    generalize (if b.a1 < b.a2 then interp sqrt b.a1 b.a2 b.f1 b.f2 b.pad1 b.pad2
      else interp sqrt b.a2 b.a1 b.f2 b.f1 b.pad2 b.pad1) = t at h ht
    by_cases c1 : |f (Vec.add x0 (Vec.smul d t)) - b.f1| / (1 + |f (Vec.add x0 (Vec.smul d t))|) < xi ∨
        |f (Vec.add x0 (Vec.smul d t)) - b.f2| / (1 + |f (Vec.add x0 (Vec.smul d t))|) < xi
    · rw [if_pos c1] at h
      simp only [Option.some.injEq, Prod.mk.injEq] at h
      obtain ⟨rfl, -⟩ := h
      exact ht
    · rw [if_neg c1] at h
      by_cases c2 : f (Vec.add x0 (Vec.smul d t)) > f0 + steepness * t * pad0 ∨
          f (Vec.add x0 (Vec.smul d t)) ≥ b.f1
      · rw [if_pos c2] at h
        exact ih _ _ _ (by exact h1) (by exact ht) h
      · rw [if_neg c2] at h
        by_cases c3 : |b.pad1| ≤ -sigma * pad0
        · rw [if_pos c3] at h
          simp only [Option.some.injEq, Prod.mk.injEq] at h
          obtain ⟨rfl, -⟩ := h
          exact ht
        · rw [if_neg c3] at h
          refine ih _ _ _ (by exact ht) ?_ h
          show 0 ≤ (if b.pad1 * (b.a2 - b.a1) ≥ 0 then
              ({ b with a2 := b.a1, f2 := b.f1, pad2 := b.pad1 } : Bracket α) else b).a2 ∧
            (if b.pad1 * (b.a2 - b.a1) ≥ 0 then
              ({ b with a2 := b.a1, f2 := b.f1, pad2 := b.pad1 } : Bracket α) else b).a2 ≤ M
          split_ifs
          · exact h1
          · exact h2

/-- Steps returned by the loop of `wolfe` stay in `[0, M]` when the bracket ends
do and `max_step ≤ M`. -/
theorem wolfe_loop_range (sqrt : α → α) (x0 d : Vec α) (f : Vec α → α) (g : Vec α → Vec α)
    (f0 pad0 steepness sigma xi max_step step_factor M : α)
    (hm : 0 < max_step) (hs : 0 < step_factor) (hM : max_step ≤ M) (fuel : Nat) :
    ∀ (b : Bracket α) (steps : Nat) (a : α) (e : Exit),
    (0 ≤ b.a1 ∧ b.a1 ≤ M) → (0 ≤ b.a2 ∧ b.a2 ≤ M) →
    wolfe_loop sqrt x0 d f g f0 pad0 steepness sigma xi max_step step_factor fuel b steps
      = some (a, e) →
    0 ≤ a ∧ a ≤ M := by
  induction fuel with
  | zero => intro b steps a e _ _ h; simp [wolfe_loop] at h
  | succ n ih =>
    intro b steps a e h1 h2 h
    rw [wolfe_loop] at h
    split_ifs at h with c1 c2
    · exact wolfe_noc_zoom_range sqrt x0 d f g f0 pad0 steepness sigma xi M n b a e h1 h2 h
    · simp only [Option.some.injEq, Prod.mk.injEq] at h
      obtain ⟨rfl, -⟩ := h
      exact h2
    · refine ih _ _ _ _ (by exact h2) ?_ h
      exact ⟨le_min (le_of_lt hm) (mul_nonneg h2.1 (le_of_lt hs)),
        le_trans (min_le_left _ _) hM⟩

/-- Steps returned by the loop of `strong_wolfe` stay in `[0, M]` when the bracket
ends do and `max_step ≤ M`. -/
theorem strong_wolfe_loop_range (sqrt : α → α) (x0 d : Vec α) (f : Vec α → α)
    (g : Vec α → Vec α)
    (f0 pad0 steepness sigma xi max_step step_factor M : α)
    (hm : 0 < max_step) (hs : 0 < step_factor) (hM : max_step ≤ M) (fuel : Nat) :
    ∀ (b : Bracket α) (steps : Nat) (a : α) (e : Exit),
    (0 ≤ b.a1 ∧ b.a1 ≤ M) → (0 ≤ b.a2 ∧ b.a2 ≤ M) →
    strong_wolfe_loop sqrt x0 d f g f0 pad0 steepness sigma xi max_step step_factor fuel b steps
      = some (a, e) →
    0 ≤ a ∧ a ≤ M := by
  induction fuel with
  | zero => intro b steps a e _ _ h; simp [strong_wolfe_loop] at h
  | succ n ih =>
    intro b steps a e h1 h2 h
    rw [strong_wolfe_loop] at h
    split_ifs at h with c1 c2 c3
    · exact strong_wolfe_noc_zoom_range sqrt x0 d f g f0 pad0 steepness sigma xi M n b a e
        h1 h2 h
    · simp only [Option.some.injEq, Prod.mk.injEq] at h
      obtain ⟨rfl, -⟩ := h
      exact h2
    · exact strong_wolfe_noc_zoom_range sqrt x0 d f g f0 pad0 steepness sigma xi M n b a e
        h1 h2 h
    · refine ih _ _ _ _ (by exact h2) ?_ h
      exact ⟨le_min (le_of_lt hm) (mul_nonneg h2.1 (le_of_lt hs)),
        le_trans (min_le_left _ _) hM⟩

/-- Claim C17: for `initial_step > 0`, `max_step > 0` and `step_factor > 0` every
step returned by `wolfe` and every step returned by `strong_wolfe` lies in
`[0, max(initial_step, max_step)]`. -/
theorem wolfe_step_range (sqrt : α → α) (fuel : Nat) (x0 d : Vec α) (f : Vec α → α)
    (g : Vec α → Vec α) (steepness initial_step sigma xi max_step step_factor : α)
    (hi : 0 < initial_step) (hm : 0 < max_step) (hs : 0 < step_factor) (a : α)
    (h : wolfe sqrt fuel x0 d f g steepness initial_step sigma xi max_step step_factor = some a ∨
      strong_wolfe sqrt fuel x0 d f g steepness initial_step sigma xi max_step step_factor
        = some a) :
    0 ≤ a ∧ a ≤ max initial_step max_step := by
  have hz : (0 : α) ≤ 0 ∧ (0 : α) ≤ max initial_step max_step :=
    ⟨le_refl _, le_trans (le_of_lt hi) (le_max_left _ _)⟩
  have hi2 : 0 ≤ initial_step ∧ initial_step ≤ max initial_step max_step :=
    ⟨le_of_lt hi, le_max_left _ _⟩
  rcases h with h | h
  · simp only [wolfe, Option.map_eq_some', Prod.exists, exists_and_right, exists_eq_right] at h
    obtain ⟨e, he⟩ := h
    exact wolfe_loop_range sqrt x0 d f g _ _ steepness sigma xi max_step step_factor _ hm hs
      (le_max_right _ _) fuel _ 1 a e hz hi2 he
  · simp only [strong_wolfe, Option.map_eq_some', Prod.exists, exists_and_right,
      exists_eq_right] at h
    obtain ⟨e, he⟩ := h
    exact strong_wolfe_loop_range sqrt x0 d f g _ _ steepness sigma xi max_step step_factor _
      hm hs (le_max_right _ _) fuel _ 1 a e hz hi2 he

/-- Witness of C17 on `f(x) = x²`, `x0 = [1]`, `d = [-2]`, `initial_step = 1/2`. -/
theorem wolfe_step_range_witness :
    (0 : ℚ) ≤ 1 / 2 ∧ (1 / 2 : ℚ) ≤ max (1 / 2) 10000000000 :=
  wolfe_step_range Rat.sqrt 1 [1] [-2] quadratic (fun v => v.map (fun t => 2 * t))
    (1 / 10000) (1 / 2) (9 / 10) (1 / 1000) 10000000000 10 (by norm_num) (by norm_num)
    (by norm_num) (1 / 2)
    (Or.inl (by norm_num [wolfe, wolfe_exit, wolfe_loop, quadratic, Vec.add, Vec.smul,
      Vec.dot]))

/-! ### `binary` -/

/-- `d * a * c` is `d * (a * c)`. -/
theorem Vec.smul_smul (d : Vec α) (a c : α) : Vec.smul (Vec.smul d a) c = Vec.smul d (a * c) := by
  simp only [Vec.smul, List.map_map]
  congr 1
  funext x
  simp only [Function.comp_apply, mul_assoc]

/-- `d * a / c` is `d * (a / c)`. -/
theorem Vec.sdiv_smul (d : Vec α) (a c : α) : Vec.sdiv (Vec.smul d a) c = Vec.smul d (a / c) := by
  simp only [Vec.smul, Vec.sdiv, List.map_map]
  congr 1
  funext x
  simp only [Function.comp_apply, mul_div_assoc]

/-- What the doubling loop of `binary` returns. -/
theorem binary_double_spec (x0 d : Vec α) (f : Vec α → α) (fuel : Nat) :
    ∀ (a curr t r : α), curr = f (Vec.add x0 (Vec.smul d a)) →
    t = f (Vec.add x0 (Vec.smul d (a * 2))) →
    binary_double x0 d f fuel a curr t = some r →
    ∃ n : ℕ, r = a * 2 ^ n ∧
      f (Vec.add x0 (Vec.smul d (r * 2))) ≥ f (Vec.add x0 (Vec.smul d r)) ∧
      f (Vec.add x0 (Vec.smul d r)) ≤ curr := by
  induction fuel with
  | zero => intro a curr t r _ _ h; simp [binary_double] at h
  | succ m ih =>
    intro a curr t r hc ht h
    rw [binary_double] at h
    split_ifs at h with hlt
    · obtain ⟨n, hr, h1, h2⟩ := ih _ _ _ r ht (by rw [Vec.smul_smul]) h
      refine ⟨n + 1, ?_, h1, le_trans h2 (le_of_lt hlt)⟩
      rw [hr, pow_succ]; ring
    · cases h
      refine ⟨0, by simp, ?_, le_of_eq hc.symm⟩
      rw [← hc, ← ht]
      exact not_lt.mp hlt

/-- What the halving loop of `binary` returns. -/
theorem binary_halve_spec (x0 d : Vec α) (f : Vec α → α) (fuel : Nat) :
    ∀ (a curr t r : α), curr = f (Vec.add x0 (Vec.smul d a)) →
    t = f (Vec.add x0 (Vec.smul d (a / 2))) →
    binary_halve x0 d f fuel a curr t = some r →
    ∃ n : ℕ, r = a / 2 ^ n ∧
      f (Vec.add x0 (Vec.smul d (r / 2))) ≥ f (Vec.add x0 (Vec.smul d r)) ∧
      f (Vec.add x0 (Vec.smul d r)) ≤ curr := by
  induction fuel with
  | zero => intro a curr t r _ _ h; simp [binary_halve] at h
  | succ m ih =>
    intro a curr t r hc ht h
    rw [binary_halve] at h
    split_ifs at h with hlt
    · obtain ⟨n, hr, h1, h2⟩ := ih _ _ _ r ht (by rw [Vec.sdiv_smul]) h
      refine ⟨n + 1, ?_, h1, le_trans h2 (le_of_lt hlt)⟩
      rw [hr, pow_succ, div_div, mul_comm]
    · cases h
      refine ⟨0, by simp, ?_, le_of_eq hc.symm⟩
      rw [← hc, ← ht]
      exact not_lt.mp hlt

/-- Claim C18: a step `a` returned by `binary` is `s * 2^k` for an integer `k` and
does not have a larger value than the initial step `s`; when the value
decreases from `s` to `2s`, `k ≥ 1` and doubling `a` once more does not
decrease the value; otherwise `k ≤ 0` and halving `a` once more does not
decrease the value. -/
theorem binary_result (fuel : Nat) (x0 d : Vec α) (f : Vec α → α) (s a : α)
    (h : binary fuel x0 d f s = some a) :
    f (Vec.add x0 (Vec.smul d a)) ≤ f (Vec.add x0 (Vec.smul d s)) ∧
    ∃ k : ℤ, a = s * 2 ^ k ∧
      (f (Vec.add x0 (Vec.smul d (2 * s))) < f (Vec.add x0 (Vec.smul d s)) →
        1 ≤ k ∧ f (Vec.add x0 (Vec.smul d (2 * a))) ≥ f (Vec.add x0 (Vec.smul d a))) ∧
      (¬ f (Vec.add x0 (Vec.smul d (2 * s))) < f (Vec.add x0 (Vec.smul d s)) →
        k ≤ 0 ∧ f (Vec.add x0 (Vec.smul d (a / 2))) ≥ f (Vec.add x0 (Vec.smul d a))) := by
  unfold binary at h
  simp only [Vec.smul_smul, Vec.sdiv_smul] at h
  rw [mul_comm s 2] at h
  split_ifs at h with hlt
  · obtain ⟨n, hr, h1, h2⟩ := binary_double_spec x0 d f fuel (2 * s) _ _ a rfl
      (by rw [mul_comm (2 * s) 2]) h
    refine ⟨le_trans h2 (le_of_lt hlt), (n : ℤ) + 1, ?_, fun _ => ⟨by omega, ?_⟩,
      fun hn => absurd hlt hn⟩
    · rw [hr, zpow_add_one₀ (by norm_num), zpow_natCast]; ring
    · rw [mul_comm 2 a]; exact h1
  · obtain ⟨n, hr, h1, h2⟩ := binary_halve_spec x0 d f fuel s _ _ a rfl rfl h
    refine ⟨h2, -(n : ℤ), ?_, fun hp => absurd hp hlt, fun _ => ⟨by omega, h1⟩⟩
    rw [hr, zpow_neg, zpow_natCast, div_eq_mul_inv]

/-- Witness of C18 on `f(x) = x²`, `x0 = [1]`, `d = [-2]`, `s = 1`: the value does
not decrease from `s` to `2s`, one halving gives `a = 1/2`. -/
theorem binary_result_witness :
    quadratic (Vec.add [(1 : ℚ)] (Vec.smul [-2] (1 / 2))) ≤
      quadratic (Vec.add [1] (Vec.smul [-2] 1)) ∧
    ∃ k : ℤ, (1 / 2 : ℚ) = 1 * 2 ^ k ∧
      (quadratic (Vec.add [(1 : ℚ)] (Vec.smul [-2] (2 * 1))) <
          quadratic (Vec.add [1] (Vec.smul [-2] 1)) →
        1 ≤ k ∧ quadratic (Vec.add [(1 : ℚ)] (Vec.smul [-2] (2 * (1 / 2)))) ≥
          quadratic (Vec.add [1] (Vec.smul [-2] (1 / 2)))) ∧
      (¬ quadratic (Vec.add [(1 : ℚ)] (Vec.smul [-2] (2 * 1))) <
          quadratic (Vec.add [1] (Vec.smul [-2] 1)) →
        k ≤ 0 ∧ quadratic (Vec.add [(1 : ℚ)] (Vec.smul [-2] (1 / 2 / 2))) ≥
          quadratic (Vec.add [1] (Vec.smul [-2] (1 / 2)))) :=
  binary_result 2 [1] [-2] quadratic 1 (1 / 2)
    (by norm_num [binary, binary_halve, quadratic, Vec.add, Vec.smul, Vec.sdiv])

/-! ### Interpolation steps of `armijo` -/

/-- The interpolation formulas of `armijo`: for `steps = 1` the new step is the
stationary point of the quadratic `q` with `q(0) = f0`, `q'(0) = pad0`,
`q(a_curr) = f_curr`; otherwise `cubic` and `quadr` are the coefficients of
the cubic `c(t) = cubic*t³ + quadr*t² + pad0*t + f0` through
`(a_prev, f_prev)` and `(a_curr, f_curr)`, and the new step is a root of `c'`. -/
theorem armijo_a_new_stationary (sqrt : α → α) (f0 pad0 a_curr a_prev f_curr f_prev : α)
    (steps : Nat) (ha : a_curr ≠ 0) :
    (f0 - f_curr + pad0 * a_curr ≠ 0 →
      armijo_a_new sqrt f0 pad0 a_curr a_prev f_curr f_prev 1 =
        some (pad0 * a_curr ^ 2 / (2 * (f0 - f_curr + pad0 * a_curr))) ∧
      ∀ c2 : α, cubic_eval 0 c2 pad0 f0 a_curr = f_curr →
        cubic_deriv 0 c2 pad0 (pad0 * a_curr ^ 2 / (2 * (f0 - f_curr + pad0 * a_curr))) = 0) ∧
    (a_prev ≠ 0 → a_prev ≠ a_curr → steps ≠ 1 →
      ∃ cubic quadr : α,
        armijo_cubic f0 pad0 a_curr a_prev f_curr f_prev = some cubic ∧
        armijo_quadr f0 pad0 a_curr f_curr cubic = some quadr ∧
        cubic_eval cubic quadr pad0 f0 a_prev = f_prev ∧
        cubic_eval cubic quadr pad0 f0 a_curr = f_curr ∧
        (cubic ≠ 0 → 0 ≤ quadr * quadr - 3 * cubic * pad0 →
          sqrt (quadr * quadr - 3 * cubic * pad0) * sqrt (quadr * quadr - 3 * cubic * pad0)
            = quadr * quadr - 3 * cubic * pad0 →
          armijo_a_new sqrt f0 pad0 a_curr a_prev f_curr f_prev steps =
            some ((-quadr + sqrt (quadr * quadr - 3 * cubic * pad0)) / (3 * cubic)) ∧
          cubic_deriv cubic quadr pad0
            ((-quadr + sqrt (quadr * quadr - 3 * cubic * pad0)) / (3 * cubic)) = 0)) := by
  constructor
  · intro hden
    constructor
    · simp only [armijo_a_new, if_true, divOpt, if_neg hden]
      congr 1
      field_simp
      ring
    · intro c2 hq
      simp only [cubic_eval, cubic_deriv] at hq ⊢
      have h2 : (2 : α) * (f0 - f_curr + pad0 * a_curr) ≠ 0 := mul_ne_zero (by norm_num) hden
      field_simp
      rw [← hq]
      ring
  · intro hp hne hsteps
    have hsub : a_curr - a_prev ≠ 0 := sub_ne_zero.mpr (Ne.symm hne)
    have hd1 : a_curr * a_curr * (a_curr - a_prev) * a_prev * a_prev ≠ 0 := by
      simp only [ne_eq, mul_eq_zero, not_or]
      exact ⟨⟨⟨⟨ha, ha⟩, hsub⟩, hp⟩, hp⟩
    have hd2 : a_curr * a_curr ≠ 0 := mul_ne_zero ha ha
    obtain ⟨cubic, hcub⟩ : ∃ c : α, c = (a_prev * a_prev * (f_curr - f0)
        - a_curr * a_prev * a_prev * pad0 + a_curr * a_curr * (f0 - f_prev + a_prev * pad0)) /
        (a_curr * a_curr * (a_curr - a_prev) * a_prev * a_prev) := ⟨_, rfl⟩
    obtain ⟨quadr, hquad⟩ : ∃ q : α, q =
        (-cubic * a_curr * a_curr * a_curr - f0 + f_curr - a_curr * pad0) / (a_curr * a_curr) :=
      ⟨_, rfl⟩
    have h1 : armijo_cubic f0 pad0 a_curr a_prev f_curr f_prev = some cubic := by
      simp only [armijo_cubic, divOpt, if_neg hd1, hcub]
    have h2 : armijo_quadr f0 pad0 a_curr f_curr cubic = some quadr := by
      simp only [armijo_quadr, divOpt, if_neg hd2, hquad]
    refine ⟨cubic, quadr, h1, h2, ?_, ?_, ?_⟩
    · simp only [cubic_eval, hquad, hcub]
      field_simp
      ring
    · simp only [cubic_eval, hquad]
      field_simp
      ring
    · intro hc hrad hs
      have hd3 : (3 : α) * cubic ≠ 0 := mul_ne_zero (by norm_num) hc
      constructor
      · simp only [armijo_a_new, if_neg hsteps, h1, h2, divOpt, sqrtOpt,
          if_neg (not_lt.mpr hrad), if_neg hd3, bind, Option.bind]
      · generalize sqrt (quadr * quadr - 3 * cubic * pad0) = r at hs
        have hx : 3 * cubic * ((-quadr + r) / (3 * cubic)) = -quadr + r :=
          mul_div_cancel₀ _ hd3
        generalize (-quadr + r) / (3 * cubic) = x at hx
        have h3 : 3 * cubic * cubic_deriv cubic quadr pad0 x = 0 := by
          simp only [cubic_deriv]
          linear_combination (3 * cubic * x + r + quadr) * hx + hs
        exact (mul_eq_zero.mp h3).resolve_left hd3

/-- Claim C16: every shrink of `armijo` moves to a stationary point of its
interpolant.  The loop starts with `steps = 1` at `a_curr = initial_step`,
`f_curr = f(x0 + d*initial_step)`.  A pass through the loop body from a state
with `a_curr ≠ 0` goes on from the state whose previous trial point is the
old current one and whose current trial point is `a_new` with its value
`f(x0 + d*a_new)`, where: in the first shrink (`steps = 1`)
`a_new = pad*a²/(2*(f0 - f_a + pad*a))` and `q'(a_new) = 0` for the quadratic
`q` with `q(0) = f0`, `q'(0) = pad`, `q(a) = f_a`; in a later shrink
(`steps ≠ 1`, non-zero `a_prev ≠ a_curr`) the coefficients `cubic` and `quadr`
give `c(t) = cubic*t³ + quadr*t² + pad*t + f0` through the two most recent
trial points and `c'(a_new) = 0`, when `cubic ≠ 0` and the radicand is
non-negative with `sqrt` its root.  Here `f0 = f(x0)` and `pad = g(x0)·d`. -/
theorem armijo_shrink_stationary (sqrt : α → α) (x0 d : Vec α) (f : Vec α → α)
    (g : Vec α → Vec α) (steepness initial_step : α) (fuel : Nat) (s : ArmijoState α)
    (hcond : s.f_curr > f x0 - steepness * s.a_curr * Vec.dot (g x0) d)
    (ha : s.a_curr ≠ 0) :
    armijo_run sqrt fuel x0 d f g steepness initial_step =
      armijo_loop sqrt x0 d f (f x0) (Vec.dot (g x0) d) steepness fuel
        { a_curr := initial_step, f_curr := f (Vec.add x0 (Vec.smul d initial_step)),
          a_prev := 0, f_prev := 0, steps := 1,
          evals := [x0, Vec.add x0 (Vec.smul d initial_step)] } ∧
    (s.steps = 1 → f x0 - s.f_curr + Vec.dot (g x0) d * s.a_curr ≠ 0 →
      armijo_loop sqrt x0 d f (f x0) (Vec.dot (g x0) d) steepness (fuel + 1) s =
        armijo_loop sqrt x0 d f (f x0) (Vec.dot (g x0) d) steepness fuel
          { a_curr := Vec.dot (g x0) d * s.a_curr ^ 2 /
              (2 * (f x0 - s.f_curr + Vec.dot (g x0) d * s.a_curr)),
            f_curr := f (Vec.add x0 (Vec.smul d (Vec.dot (g x0) d * s.a_curr ^ 2 /
              (2 * (f x0 - s.f_curr + Vec.dot (g x0) d * s.a_curr))))),
            a_prev := s.a_curr, f_prev := s.f_curr, steps := 2,
            evals := s.evals ++ [Vec.add x0 (Vec.smul d (Vec.dot (g x0) d * s.a_curr ^ 2 /
              (2 * (f x0 - s.f_curr + Vec.dot (g x0) d * s.a_curr))))] } ∧
      ∀ c2 : α, cubic_eval 0 c2 (Vec.dot (g x0) d) (f x0) s.a_curr = s.f_curr →
        cubic_deriv 0 c2 (Vec.dot (g x0) d) (Vec.dot (g x0) d * s.a_curr ^ 2 /
          (2 * (f x0 - s.f_curr + Vec.dot (g x0) d * s.a_curr))) = 0) ∧
    (s.steps ≠ 1 → s.a_prev ≠ 0 → s.a_prev ≠ s.a_curr →
      ∃ cubic quadr : α,
        armijo_cubic (f x0) (Vec.dot (g x0) d) s.a_curr s.a_prev s.f_curr s.f_prev
          = some cubic ∧
        armijo_quadr (f x0) (Vec.dot (g x0) d) s.a_curr s.f_curr cubic = some quadr ∧
        cubic_eval cubic quadr (Vec.dot (g x0) d) (f x0) s.a_prev = s.f_prev ∧
        cubic_eval cubic quadr (Vec.dot (g x0) d) (f x0) s.a_curr = s.f_curr ∧
        (cubic ≠ 0 → 0 ≤ quadr * quadr - 3 * cubic * Vec.dot (g x0) d →
          sqrt (quadr * quadr - 3 * cubic * Vec.dot (g x0) d) *
              sqrt (quadr * quadr - 3 * cubic * Vec.dot (g x0) d)
            = quadr * quadr - 3 * cubic * Vec.dot (g x0) d →
          armijo_loop sqrt x0 d f (f x0) (Vec.dot (g x0) d) steepness (fuel + 1) s =
            armijo_loop sqrt x0 d f (f x0) (Vec.dot (g x0) d) steepness fuel
              { a_curr := (-quadr + sqrt (quadr * quadr - 3 * cubic * Vec.dot (g x0) d)) /
                  (3 * cubic),
                f_curr := f (Vec.add x0 (Vec.smul d
                  ((-quadr + sqrt (quadr * quadr - 3 * cubic * Vec.dot (g x0) d)) /
                    (3 * cubic)))),
                a_prev := s.a_curr, f_prev := s.f_curr,
                steps := (s.steps + 1) % 2 ^ 64,
                evals := s.evals ++ [Vec.add x0 (Vec.smul d
                  ((-quadr + sqrt (quadr * quadr - 3 * cubic * Vec.dot (g x0) d)) /
                    (3 * cubic)))] } ∧
          cubic_deriv cubic quadr (Vec.dot (g x0) d)
            ((-quadr + sqrt (quadr * quadr - 3 * cubic * Vec.dot (g x0) d)) / (3 * cubic))
              = 0)) := by
  have hstat := armijo_a_new_stationary sqrt (f x0) (Vec.dot (g x0) d) s.a_curr s.a_prev
    s.f_curr s.f_prev s.steps ha
  refine ⟨rfl, ?_, ?_⟩
  · intro hsteps hden
    obtain ⟨hnew, hq⟩ := hstat.1 hden
    refine ⟨?_, hq⟩
    rw [armijo_loop, if_pos hcond, hsteps, hnew]
    rfl
  · intro hsteps hp hne
    obtain ⟨cubic, quadr, h1, h2, h3, h4, h5⟩ := hstat.2 hp hne hsteps
    refine ⟨cubic, quadr, h1, h2, h3, h4, fun hc hrad hs => ?_⟩
    obtain ⟨hnew, hc'⟩ := h5 hc hrad hs
    refine ⟨?_, hc'⟩
    rw [armijo_loop, if_pos hcond, hnew]


/-- The rational square root of the perfect square 441. -/
theorem rat_sqrt_441 : Rat.sqrt 441 = 21 := by
  rw [show (441 : ℚ) = 21 * 21 by norm_num, Rat.sqrt_eq]; norm_num

/-- Witness of C16 for both kinds of shrink, on the run of `armijo` on
`f(x) = -5x³ + 24x² - 9x` from `x0 = [0]` along `d = [1]` with
`steepness = 1/10000` and `initial_step = 3`, where `f0 = 0` and `pad = -9`:
the first shrink goes from `a = 3`, `f_a = 54` to `1/2`, a stationary point of
the quadratic `9t² - 9t`; the second shrink uses the trial points `(3, 54)` and
`(1/2, 7/8)`, gets `cubic = -5`, `quadr = 24` and goes to `1/5`, a stationary
point of `-5t³ + 24t² - 9t`; there the loop stops and `armijo` returns `1/5`. -/
theorem armijo_shrink_stationary_witness :
    (armijo_loop Rat.sqrt [0] [1] shrink_f 0 (-9)
        (1 / 10000) 3
        { a_curr := 3, f_curr := 54, a_prev := 0, f_prev := 0, steps := 1,
          evals := [[0], [3]] } =
      armijo_loop Rat.sqrt [0] [1] shrink_f 0 (-9)
        (1 / 10000) 2
        { a_curr := 1 / 2, f_curr := 7 / 8, a_prev := 3, f_prev := 54, steps := 2,
          evals := [[0], [3], [1 / 2]] } ∧
      cubic_deriv 0 9 (-9) (1 / 2 : ℚ) = 0) ∧
    (armijo_cubic 0 (-9) (1 / 2) 3 (7 / 8) (54 : ℚ) = some (-5) ∧
      armijo_quadr 0 (-9) (1 / 2) (7 / 8) (-5 : ℚ) = some 24 ∧
      cubic_eval (-5) 24 (-9) 0 (3 : ℚ) = 54 ∧
      cubic_eval (-5) 24 (-9) 0 (1 / 2 : ℚ) = 7 / 8 ∧
      armijo_loop Rat.sqrt [0] [1] shrink_f 0 (-9)
        (1 / 10000) 2
        { a_curr := 1 / 2, f_curr := 7 / 8, a_prev := 3, f_prev := 54, steps := 2,
          evals := [[0], [3], [1 / 2]] } =
      armijo_loop Rat.sqrt [0] [1] shrink_f 0 (-9)
        (1 / 10000) 1
        { a_curr := 1 / 5, f_curr := -22 / 25, a_prev := 1 / 2, f_prev := 7 / 8, steps := 3,
          evals := [[0], [3], [1 / 2], [1 / 5]] } ∧
      cubic_deriv (-5) 24 (-9) (1 / 5 : ℚ) = 0) ∧
    armijo Rat.sqrt 3 [0] [1] shrink_f shrink_g (1 / 10000) 3 = some (1 / 5) := by
  have hf0 : shrink_f [0] = 0 := by norm_num [shrink_f]
  have hpad : Vec.dot (shrink_g [0]) [1] = -9 := by norm_num [shrink_g, Vec.dot]
  have h0 := armijo_shrink_stationary Rat.sqrt [0] [1] shrink_f shrink_g (1 / 10000) 3 2
    { a_curr := 3, f_curr := 54, a_prev := 0, f_prev := 0, steps := 1,
      evals := [[0], [3]] }
    (by rw [hf0, hpad]; norm_num) (by norm_num)
  have h1 := armijo_shrink_stationary Rat.sqrt [0] [1] shrink_f shrink_g (1 / 10000) 3 1
    { a_curr := 1 / 2, f_curr := 7 / 8, a_prev := 3, f_prev := 54, steps := 2,
      evals := [[0], [3], [1 / 2]] }
    (by rw [hf0, hpad]; norm_num) (by norm_num)
  have hrun := (armijo_shrink_stationary Rat.sqrt [0] [1] shrink_f shrink_g (1 / 10000) 3 3
    { a_curr := 3, f_curr := 54, a_prev := 0, f_prev := 0, steps := 1,
      evals := [[0], [3]] }
    (by rw [hf0, hpad]; norm_num) (by norm_num)).1
  obtain ⟨-, hfirst, -⟩ := h0
  obtain ⟨hstep0, hq0⟩ := hfirst rfl (by rw [hf0, hpad]; norm_num)
  obtain ⟨cubic, quadr, hc, hq, hp1, hp2, himp⟩ :=
    h1.2.2 (by decide) (by norm_num) (by norm_num)
  rw [hf0, hpad] at hc hq hp1 hp2 himp hq0 hstep0 hrun
  have hcub : cubic = -5 := by
    have h := hc
    norm_num [armijo_cubic, divOpt] at h
    linarith
  subst hcub
  have hquad : quadr = 24 := by
    have h := hq
    norm_num [armijo_quadr, divOpt] at h
    linarith
  subst hquad
  have hrad : (24 : ℚ) * 24 - 3 * -5 * -9 = 441 := by norm_num
  obtain ⟨hstep1, hc1⟩ := himp (by norm_num) (by norm_num)
    (by rw [hrad, rat_sqrt_441]; norm_num)
  rw [hrad, rat_sqrt_441] at hstep1 hc1
  have e0 : (-9 : ℚ) * 3 ^ 2 / (2 * (0 - 54 + -9 * 3)) = 1 / 2 := by norm_num
  have e1 : (-24 + 21 : ℚ) / (3 * -5) = 1 / 5 := by norm_num
  have hs0 : armijo_loop Rat.sqrt [0] [1] shrink_f 0 (-9) (1 / 10000) 3
        { a_curr := 3, f_curr := 54, a_prev := 0, f_prev := 0, steps := 1,
          evals := [[0], [3]] } =
      armijo_loop Rat.sqrt [0] [1] shrink_f 0 (-9)
        (1 / 10000) 2
        { a_curr := 1 / 2, f_curr := 7 / 8, a_prev := 3, f_prev := 54, steps := 2,
          evals := [[0], [3], [1 / 2]] } := by
    refine hstep0.trans (congrArg _ ?_)
    simp only [e0]
    norm_num [shrink_f, Vec.add, Vec.smul]
  have hs1 : armijo_loop Rat.sqrt [0] [1] shrink_f 0 (-9) (1 / 10000) 2
        { a_curr := 1 / 2, f_curr := 7 / 8, a_prev := 3, f_prev := 54, steps := 2,
          evals := [[0], [3], [1 / 2]] } =
      armijo_loop Rat.sqrt [0] [1] shrink_f 0 (-9)
        (1 / 10000) 1
        { a_curr := 1 / 5, f_curr := -22 / 25, a_prev := 1 / 2, f_prev := 7 / 8, steps := 3,
          evals := [[0], [3], [1 / 2], [1 / 5]] } := by
    refine hstep1.trans (congrArg _ ?_)
    simp only [e1]
    norm_num [shrink_f, Vec.add, Vec.smul]
  refine ⟨⟨hs0, ?_⟩, ⟨hc, hq, hp1, hp2, hs1, ?_⟩, ?_⟩
  · have h := hq0 9 (by norm_num [cubic_eval])
    simpa only [e0] using h
  · simpa only [e1] using hc1
  · have hinit : shrink_f (Vec.add [0] (Vec.smul [1] 3)) = 54 := by
      norm_num [shrink_f, Vec.add, Vec.smul]
    have hv : Vec.add ([0] : Vec ℚ) (Vec.smul [1] 3) = [3] := by
      norm_num [Vec.add, Vec.smul]
    rw [armijo, hrun, hinit, hv, hs0, hs1, armijo_loop, if_neg (by norm_num)]
    rfl

/-! ### Dimension check of `extended_psc1` -/

/-- A property preserved by the body of a loop holds after the loop. -/
theorem foldl_preserves {σ ι : Type} (P : σ → Prop) (body : σ → ι → σ)
    (hbody : ∀ s i, P s → P (body s i)) (l : List ι) : ∀ s : σ, P s → P (l.foldl body s) := by
  induction l with
  | nil => intro s hs; exact hs
  | cons x xs ih => intro s hs; exact ih _ (hbody s x hs)

/-- The zero matrix has the shape it was built with. -/
theorem Mat.shape_zeros (n m : Nat) : (Mat.zeros n m : Mat α).Shape n m := by
  constructor
  · simp [Mat.zeros]
  · intro row hrow
    simp only [Mat.zeros] at hrow
    rw [List.eq_of_mem_replicate hrow]
    simp

/-- An assignment `z[i][j] = x` keeps the shape. -/
theorem Mat.shape_set {β : Type} (z : Mat β) (n m i j : Nat) (x : β) (h : z.Shape n m) :
    (z.set i j x).Shape n m := by
  obtain ⟨h1, h2⟩ := h
  constructor
  · simp [Mat.set, h1]
  · intro row hrow
    simp only [Mat.set] at hrow
    by_cases hi : i < z.length
    · rcases List.mem_or_eq_of_mem_set hrow with hm | rfl
      · exact h2 row hm
      · rw [List.length_set]
        apply h2
        rw [List.getD_eq_getElem _ _ hi]
        exact List.getElem_mem hi
    · rw [List.set_eq_of_length_le (not_lt.mp hi)] at hrow
      exact h2 row hrow

/-- Claim C14: each of `extended_psc1_f`, `extended_psc1_g`, `extended_psc1_h` fails
with the invalid-dimension error exactly when the length of the point is odd
or zero; for an even positive length `n` each returns a value, the gradient
of length `n` and the Hessian of shape `n × n`. -/
theorem extended_psc1_dimension (sin cos : α → α) (v : Vec α) :
    (extended_psc1_f sin cos v = Except.error "extended_psc1: n must be even and positive" ↔
      (v.length % 2 = 1 ∨ v.length = 0)) ∧
    (extended_psc1_g sin cos v = Except.error "extended_psc1: n must be even and positive" ↔
      (v.length % 2 = 1 ∨ v.length = 0)) ∧
    (extended_psc1_h sin cos v = Except.error "extended_psc1: n must be even and positive" ↔
      (v.length % 2 = 1 ∨ v.length = 0)) ∧
    (v.length % 2 = 0 → 0 < v.length →
      (∃ z : α, extended_psc1_f sin cos v = Except.ok z) ∧
      (∃ z : Vec α, extended_psc1_g sin cos v = Except.ok z ∧ z.length = v.length) ∧
      (∃ z : Mat α, extended_psc1_h sin cos v = Except.ok z ∧ z.Shape v.length v.length)) := by
  by_cases hbad : v.length % 2 ≠ 0 ∨ v.length = 0
  · have hbad' : v.length % 2 = 1 ∨ v.length = 0 := by omega
    refine ⟨?_, ?_, ?_, ?_⟩
    · simp only [extended_psc1_f, if_pos hbad, hbad']
    · simp only [extended_psc1_g, if_pos hbad, hbad']
    · simp only [extended_psc1_h, if_pos hbad, hbad']
    · intro h1 h2; omega
  · have hbad' : ¬ (v.length % 2 = 1 ∨ v.length = 0) := by omega
    refine ⟨?_, ?_, ?_, ?_⟩
    · simp only [extended_psc1_f, if_neg hbad, hbad', iff_false]
      intro h; cases h
    · simp only [extended_psc1_g, if_neg hbad, hbad', iff_false]
      intro h; cases h
    · simp only [extended_psc1_h, if_neg hbad, hbad', iff_false]
      intro h; cases h
    · intro _ _
      refine ⟨?_, ?_, ?_⟩
      · unfold extended_psc1_f
        rw [if_neg hbad]
        exact ⟨_, rfl⟩
      · unfold extended_psc1_g
        rw [if_neg hbad]
        refine ⟨_, rfl, ?_⟩
        apply foldl_preserves (fun z : Vec α => z.length = v.length)
        · intro s i hs
          simp only [List.length_set, hs]
        · simp
      · unfold extended_psc1_h
        rw [if_neg hbad]
        refine ⟨_, rfl, ?_⟩
        apply foldl_preserves (fun z : Mat α => z.Shape v.length v.length)
        · intro s i hs
          exact Mat.shape_set _ _ _ _ _ _ (Mat.shape_set _ _ _ _ _ _
            (Mat.shape_set _ _ _ _ _ _ (Mat.shape_set _ _ _ _ _ _ hs)))
        · exact Mat.shape_zeros _ _

/-- Witness of C14 at the point `[1, 2]`. -/
theorem extended_psc1_dimension_witness :
    (∃ z : ℚ, extended_psc1_f (fun x => x) (fun _ => 1) [1, 2] = Except.ok z) ∧
    (∃ z : Vec ℚ, extended_psc1_g (fun x => x) (fun _ => 1) [1, 2] = Except.ok z ∧
      z.length = ([1, 2] : Vec ℚ).length) ∧
    (∃ z : Mat ℚ, extended_psc1_h (fun x => x) (fun _ => 1) [1, 2] = Except.ok z ∧
      z.Shape ([1, 2] : Vec ℚ).length ([1, 2] : Vec ℚ).length) :=
  (extended_psc1_dimension (fun x => x) (fun _ => 1) ([1, 2] : Vec ℚ)).2.2.2 (by decide)
    (by decide)

/-! ### `full_hessian_fh2`: the gradient code against the spec's formula -/

/-- A loop with step 1 runs over `lo, lo+1, …, hi-1`. -/
theorem loopIndices_one (lo hi : Nat) : loopIndices lo hi 1 = List.range' lo (hi - lo) := by
  simp [loopIndices]

/-- Reading a list after one assignment. -/
theorem getD_set_eq {β : Type} (l : List β) (i j : Nat) (a dflt : β) :
    (l.set i a).getD j dflt = if i = j ∧ i < l.length then a else l.getD j dflt := by
  simp only [List.getD_eq_getElem?_getD, List.getElem?_set]
  by_cases hij : i = j
  · subst hij
    by_cases hi : i < l.length
    · simp [hi]
    · simp [hi, List.getElem?_eq_none (not_lt.mp hi)]
  · simp [hij]

/-- Accumulating loop: the sum of the increments. -/
theorem foldl_add_range (c : Nat → α) (t0 : α) (m : Nat) :
    (List.range' 0 m).foldl (fun t i => t + c i) t0 = t0 + ∑ i in Finset.range m, c i := by
  induction m with
  | zero => simp
  | succ m ih =>
    rw [List.range'_1_concat, List.foldl_append, ih, Finset.sum_range_succ]
    simp only [List.foldl_cons, List.foldl_nil, zero_add]
    ring

/-- The sum of the first `m` prefix sums. -/
theorem sum_psum_eq (u : Nat → α) (m : Nat) :
    ∑ i in Finset.range m, ∑ j in Finset.range (i + 1), u j =
      ∑ i in Finset.range m, ((m - i : Nat) : α) * u i := by
  induction m with
  | zero => simp
  | succ m ih =>
    rw [Finset.sum_range_succ, ih, Finset.sum_range_succ (fun i => ((m + 1 - i : Nat) : α) * u i)]
    have h1 : ∑ i in Finset.range m, ((m + 1 - i : Nat) : α) * u i =
        ∑ i in Finset.range m, (((m - i : Nat) : α) * u i + u i) := by
      apply Finset.sum_congr rfl
      intro i hi
      have hle : i ≤ m := le_of_lt (Finset.mem_range.mp hi)
      rw [Nat.succ_sub hle]
      push_cast
      ring
    rw [h1, Finset.sum_add_distrib, Finset.sum_range_succ]
    simp
    ring

/-- The first loop of `full_hessian_fh2_g` fills `ps` with the prefix sums. -/
theorem fh2_ps_loop (v : Vec α) (m : Nat) (hm : m + 1 ≤ v.length) :
    ((List.range' 1 m).foldl (fun ps i => ps.set i (ps.getD (i - 1) 0 + v.getD i 0))
        ((List.replicate v.length (0 : α)).set 0 (v.getD 0 0))).length = v.length ∧
    ∀ i, i ≤ m →
      ((List.range' 1 m).foldl (fun ps i => ps.set i (ps.getD (i - 1) 0 + v.getD i 0))
        ((List.replicate v.length (0 : α)).set 0 (v.getD 0 0))).getD i 0 = fh2_psum v i := by
  induction m with
  | zero =>
    constructor
    · simp
    · intro i hi
      have hi0 : i = 0 := by omega
      subst hi0
      have hpos : 0 < v.length := by omega
      simp [getD_set_eq, fh2_psum, hpos]
  | succ m ih =>
    obtain ⟨hlen, hval⟩ := ih (by omega)
    rw [List.range'_1_concat, List.foldl_append]
    simp only [List.foldl_cons, List.foldl_nil]
    constructor
    · simp only [List.length_set, hlen]
    · intro i hi
      rw [getD_set_eq, hlen]
      by_cases hc : 1 + m = i ∧ 1 + m < v.length
      · rw [if_pos hc]
        obtain ⟨rfl, -⟩ := hc
        rw [show 1 + m - 1 = m by omega, hval m (le_refl m)]
        simp only [fh2_psum]
        rw [show 1 + m = m + 1 by omega, Finset.sum_range_succ (fun j => v.getD j 0) (m + 1)]
      · rw [if_neg hc]
        apply hval
        omega

/-- The last loop of `full_hessian_fh2_g`: the running value of `t` and the
components of `z` written so far. -/
theorem fh2_z_loop (ps : Vec α) (t0 : α) (z0 : Vec α) (m : Nat) (hm : m + 1 ≤ z0.length) :
    ((List.range' 1 m).foldl
        (fun (s : α × Vec α) i =>
          let t : α := s.1 - 2 * ps.getD (i - 1) 0
          let t : α := t + 2
          (t, s.2.set i t))
        (t0, z0)).1 = t0 - ∑ j in Finset.range m, (2 * ps.getD j 0 - 2) ∧
    ((List.range' 1 m).foldl
        (fun (s : α × Vec α) i =>
          let t : α := s.1 - 2 * ps.getD (i - 1) 0
          let t : α := t + 2
          (t, s.2.set i t))
        (t0, z0)).2.length = z0.length ∧
    ((List.range' 1 m).foldl
        (fun (s : α × Vec α) i =>
          let t : α := s.1 - 2 * ps.getD (i - 1) 0
          let t : α := t + 2
          (t, s.2.set i t))
        (t0, z0)).2.getD 0 0 = z0.getD 0 0 ∧
    ∀ i, 1 ≤ i → i ≤ m →
      ((List.range' 1 m).foldl
        (fun (s : α × Vec α) i =>
          let t : α := s.1 - 2 * ps.getD (i - 1) 0
          let t : α := t + 2
          (t, s.2.set i t))
        (t0, z0)).2.getD i 0 = t0 - ∑ j in Finset.range i, (2 * ps.getD j 0 - 2) := by
  induction m with
  | zero =>
    refine ⟨by simp, by simp, by simp, ?_⟩
    intro i h1 h2
    omega
  | succ m ih =>
    obtain ⟨ht, hlen, h0, hval⟩ := ih (by omega)
    rw [List.range'_1_concat, List.foldl_append]
    simp only [List.foldl_cons, List.foldl_nil]
    rw [ht, show 1 + m - 1 = m by omega]
    refine ⟨?_, ?_, ?_, ?_⟩
    · rw [Finset.sum_range_succ]; ring
    · simp only [List.length_set, hlen]
    · rw [getD_set_eq, if_neg (by omega), h0]
    · intro i h1 h2
      rw [getD_set_eq, hlen]
      by_cases hc : 1 + m = i ∧ 1 + m < z0.length
      · rw [if_pos hc]
        obtain ⟨rfl, -⟩ := hc
        rw [show 1 + m = m + 1 by omega, Finset.sum_range_succ]; ring
      · rw [if_neg hc]
        exact hval i h1 (by omega)

/-- The loop of `full_hessian_fh2_f`: the running sum of squares and the
running prefix sum. -/
theorem fh2_f_loop (v : Vec α) (m : Nat) :
    (List.range' 1 m).foldl
      (fun (s : α × α) i =>
        let ps : α := s.2 + v.getD i 0
        (s.1 + (ps - 1) * (ps - 1), ps))
      ((v.getD 0 0 - 5) * (v.getD 0 0 - 5), v.getD 0 0) =
    ((v.getD 0 0 - 5) ^ 2 + ∑ i in Finset.Ico 1 (m + 1), (fh2_psum v i - 1) ^ 2,
      fh2_psum v m) := by
  induction m with
  | zero => simp [fh2_psum]; ring
  | succ m ih =>
    rw [List.range'_1_concat, List.foldl_append, ih]
    simp only [List.foldl_cons, List.foldl_nil]
    have hp : fh2_psum v m + v.getD (1 + m) 0 = fh2_psum v (m + 1) := by
      simp only [fh2_psum]
      rw [Finset.sum_range_succ (fun j => v.getD j 0) (m + 1), show 1 + m = m + 1 by omega]
    rw [hp, Finset.sum_Ico_succ_top (by omega : 1 ≤ m + 1)]
    congr 1
    ring

/-- The value of `t` before the last loop of `full_hessian_fh2_g`. -/
theorem fh2_t_eq (v : Vec α) :
    full_hessian_fh2_t v = ∑ i in Finset.range v.length, (2 * fh2_psum v i - 2) := by
  unfold full_hessian_fh2_t
  rw [loopIndices_one, Nat.sub_zero, foldl_add_range]
  have h1 : ∑ i in Finset.range v.length, ((v.length - i : Nat) : α) * v.getD i 0 * 2 =
      2 * ∑ i in Finset.range v.length, ((v.length - i : Nat) : α) * v.getD i 0 := by
    rw [Finset.mul_sum]
    apply Finset.sum_congr rfl
    intro i _
    ring
  rw [h1, ← sum_psum_eq (fun j => v.getD j 0) v.length]
  simp only [fh2_psum, Finset.sum_sub_distrib, Finset.sum_const, Finset.card_range,
    nsmul_eq_mul, ← Finset.mul_sum]
  ring

/-- The code of `full_hessian_fh2_f` and `full_hessian_fh2_g` computes the value
and the gradient components that the spec states. -/
theorem fh2_code_eq_spec (v : Vec α) (k : Nat) (hk : k < v.length) :
    full_hessian_fh2_f v = Except.ok (fh2_value_spec v) ∧
    ∃ z : Vec α, full_hessian_fh2_g v = Except.ok z ∧ z.length = v.length ∧
      z.getD k 0 = fh2_gradient_spec v k := by
  have hn : ¬ v.length = 0 := by omega
  constructor
  · unfold full_hessian_fh2_f
    rw [if_neg hn]
    simp only [loopIndices_one]
    rw [fh2_f_loop v (v.length - 1)]
    simp only [fh2_value_spec]
    rw [show v.length - 1 + 1 = v.length by omega]
  · unfold full_hessian_fh2_g
    rw [if_neg hn]
    simp only [loopIndices_one]
    have hps := fh2_ps_loop v (v.length - 1) (by omega)
    have hz := fh2_z_loop (full_hessian_fh2_ps v) (full_hessian_fh2_t v)
      ((List.replicate v.length (0 : α)).set 0 (full_hessian_fh2_t v - 8)) (v.length - 1)
      (by simp only [List.length_set, List.length_replicate]; omega)
    obtain ⟨-, hlen, h0, hval⟩ := hz
    refine ⟨_, rfl, ?_, ?_⟩
    · rw [hlen]; simp
    · have hsum : ∀ i, i ≤ v.length - 1 →
          ∑ j in Finset.range i, (2 * (full_hessian_fh2_ps v).getD j 0 - 2) =
            ∑ j in Finset.range i, (2 * fh2_psum v j - 2) := by
        intro i hi
        apply Finset.sum_congr rfl
        intro j hj
        have hj' : j ≤ v.length - 1 := by
          have := Finset.mem_range.mp hj
          omega
        have := hps.2 j hj'
        simp only [full_hessian_fh2_ps, loopIndices_one]
        rw [this]
      by_cases hk0 : k = 0
      · subst hk0
        rw [h0, getD_set_eq, if_pos ⟨rfl, by simp; omega⟩, fh2_t_eq]
        simp only [fh2_gradient_spec, if_true, Nat.zero_max]
        rw [Finset.range_eq_Ico, Finset.sum_eq_sum_Ico_succ_bot (by omega : 0 < v.length)]
        simp only [fh2_psum, Finset.sum_range_one, zero_add]
        have : ∀ i ∈ Finset.Ico 1 v.length,
            2 * ∑ j in Finset.range (i + 1), v.getD j 0 - 2 =
              2 * (∑ j in Finset.range (i + 1), v.getD j 0 - 1) := by
          intro i _; ring
        rw [Finset.sum_congr rfl this]
        ring
      · have hk1 : 1 ≤ k := by omega
        rw [hval k hk1 (by omega), hsum k (by omega), fh2_t_eq]
        simp only [fh2_gradient_spec, if_neg hk0, zero_add, max_eq_left hk1]
        rw [Finset.sum_Ico_eq_sub _ (le_of_lt hk)]
        apply congrArg₂
        · apply Finset.sum_congr rfl; intro i _; ring
        · apply Finset.sum_congr rfl; intro i _; ring

/-- The prefix sums of a point whose component `k` is moved by `h`. -/
theorem fh2_psum_set (v : Vec α) (k : Nat) (hk : k < v.length) (h : α) (i : Nat) :
    fh2_psum (v.set k (v.getD k 0 + h)) i = fh2_psum v i + (if k ≤ i then h else 0) := by
  simp only [fh2_psum, getD_set_eq]
  have h1 : ∀ j ∈ Finset.range (i + 1),
      (if k = j ∧ k < v.length then v.getD k 0 + h else v.getD j 0) =
        v.getD j 0 + (if k = j then h else 0) := by
    intro j _
    by_cases hkj : k = j
    · subst hkj; simp [hk]
    · simp [hkj]
  rw [Finset.sum_congr rfl h1, Finset.sum_add_distrib, Finset.sum_ite_eq]
  simp only [Finset.mem_range, Nat.lt_succ_iff]

/-- The spec's gradient is the partial derivative of the spec's value: moving
component `k` by `h` changes the value by `h` times the gradient component plus
a multiple of `h²`. -/
theorem fh2_value_spec_taylor (v : Vec α) (k : Nat) (hk : k < v.length) (h : α) :
    fh2_value_spec (v.set k (v.getD k 0 + h)) =
      fh2_value_spec v + h * fh2_gradient_spec v k
        + h ^ 2 * ((if k = 0 then 1 else 0) + ((v.length - max k 1 : Nat) : α)) := by
  simp only [fh2_value_spec, fh2_gradient_spec, fh2_psum_set v k hk h, List.length_set]
  have h0 : (v.set k (v.getD k 0 + h)).getD 0 0 = v.getD 0 0 + (if k = 0 then h else 0) := by
    rw [getD_set_eq]
    by_cases hk0 : k = 0
    · subst hk0; simp [hk]
    · simp [hk0]
  rw [h0]
  have h1 : ∀ i ∈ Finset.Ico 1 v.length,
      (fh2_psum v i + (if k ≤ i then h else 0) - 1) ^ 2 =
        (fh2_psum v i - 1) ^ 2 +
          (if max k 1 ≤ i then 2 * h * (fh2_psum v i - 1) + h ^ 2 else 0) := by
    intro i hi
    have hi1 : 1 ≤ i := (Finset.mem_Ico.mp hi).1
    by_cases hki : k ≤ i
    · rw [if_pos hki, if_pos (max_le hki hi1)]; ring
    · rw [if_neg hki, if_neg (fun hc => hki (le_trans (le_max_left k 1) hc))]; ring
  rw [Finset.sum_congr rfl h1, Finset.sum_add_distrib, ← Finset.sum_filter]
  have h2 : Finset.filter (fun i => max k 1 ≤ i) (Finset.Ico 1 v.length) =
      Finset.Ico (max k 1) v.length := by
    ext i
    simp only [Finset.mem_filter, Finset.mem_Ico]
    constructor
    · rintro ⟨⟨_, h3⟩, h4⟩; exact ⟨h4, h3⟩
    · rintro ⟨h3, h4⟩; exact ⟨⟨le_trans (le_max_right k 1) h3, h4⟩, h3⟩
  rw [h2, Finset.sum_add_distrib, Finset.sum_const, Nat.card_Ico, nsmul_eq_mul]
  have h3 : ∀ i ∈ Finset.Ico (max k 1) v.length,
      2 * h * (fh2_psum v i - 1) = h * (2 * (fh2_psum v i - 1)) := by
    intro i _; ring
  rw [Finset.sum_congr rfl h3, ← Finset.mul_sum]
  by_cases hk0 : k = 0
  · simp only [hk0, if_true]; ring
  · simp only [hk0, if_false]; ring

/-- Claim C19: for a non-empty point `v` and `k < n`, component `k` of
`full_hessian_fh2_g(v)` is
`2·(v_0 − 5)·[k = 0] + Σ_{i = max(k,1)}^{n−1} 2·(v_0 + … + v_i − 1)`,
`full_hessian_fh2_f(v)` is `(v_0 − 5)² + Σ_{i=1}^{n−1} (v_0 + … + v_i − 1)²`, and
the former is the partial derivative of the latter: moving `v_k` by `h`
changes `full_hessian_fh2_f` by `h` times that component plus a multiple of
`h²`. -/
theorem full_hessian_fh2_gradient (v : Vec α) (k : Nat) (hk : k < v.length) :
    full_hessian_fh2_f v = Except.ok (fh2_value_spec v) ∧
    ∃ z : Vec α, full_hessian_fh2_g v = Except.ok z ∧ z.length = v.length ∧
      z.getD k 0 = fh2_gradient_spec v k ∧
      ∀ h : α, full_hessian_fh2_f (v.set k (v.getD k 0 + h)) =
        Except.ok (fh2_value_spec v + h * z.getD k 0
          + h ^ 2 * ((if k = 0 then 1 else 0) + ((v.length - max k 1 : Nat) : α))) := by
  obtain ⟨hf, z, hg, hlen, hz⟩ := fh2_code_eq_spec v k hk
  refine ⟨hf, z, hg, hlen, hz, fun h => ?_⟩
  have hk' : k < (v.set k (v.getD k 0 + h)).length := by
    rw [List.length_set]; exact hk
  rw [(fh2_code_eq_spec (v.set k (v.getD k 0 + h)) k hk').1, fh2_value_spec_taylor v k hk h, hz]

/-- Witness of C19 at the point `[1, 2, 3]` and `k = 1`. -/
theorem full_hessian_fh2_gradient_witness :
    full_hessian_fh2_f ([1, 2, 3] : Vec ℚ) = Except.ok (fh2_value_spec [1, 2, 3]) ∧
    ∃ z : Vec ℚ, full_hessian_fh2_g [1, 2, 3] = Except.ok z ∧
      z.length = ([1, 2, 3] : Vec ℚ).length ∧
      z.getD 1 0 = fh2_gradient_spec [1, 2, 3] 1 ∧
      ∀ h : ℚ, full_hessian_fh2_f (([1, 2, 3] : Vec ℚ).set 1 (([1, 2, 3] : Vec ℚ).getD 1 0 + h)) =
        Except.ok (fh2_value_spec [1, 2, 3] + h * z.getD 1 0
          + h ^ 2 * ((if 1 = 0 then 1 else 0)
            + ((([1, 2, 3] : Vec ℚ).length - max 1 1 : Nat) : ℚ))) :=
  full_hessian_fh2_gradient [1, 2, 3] 1 (by decide)

/-- Over the reals the spec's gradient component is the derivative of the spec's
value with respect to `v_k`. -/
theorem fh2_value_spec_hasDerivAt (v : Vec ℝ) (k : Nat) (hk : k < v.length) :
    HasDerivAt (fun t : ℝ => fh2_value_spec (v.set k t)) (fh2_gradient_spec v k)
      (v.getD k 0) := by
  have hfun : (fun t : ℝ => fh2_value_spec (v.set k t)) =
      fun t : ℝ => fh2_value_spec v + (t - v.getD k 0) * fh2_gradient_spec v k
        + (t - v.getD k 0) ^ 2 * ((if k = 0 then 1 else 0) + ((v.length - max k 1 : Nat) : ℝ)) := by
    funext t
    have := fh2_value_spec_taylor v k hk (t - v.getD k 0)
    rw [add_sub_cancel] at this
    exact this
  rw [hfun]
  have h1 : HasDerivAt (fun t : ℝ => t - v.getD k 0) 1 (v.getD k 0) :=
    (hasDerivAt_id _).sub_const _
  have h2 := ((h1.mul_const (fh2_gradient_spec v k)).const_add (fh2_value_spec v)).add
    ((h1.pow 2).mul_const ((if k = 0 then 1 else 0) + ((v.length - max k 1 : Nat) : ℝ)))
  convert h2 using 1
  simp

end LnSearch
